import Mathlib

/-! Streaming base64 decoder of libhtp (`htp/htp_base64.c`).

A shallow embedding of `htp_base64_decode_single`, `htp_base64_decoder_init`,
`htp_base64_decode` and `htp_base64_decode_mem`, followed by theorems about them.

Conventions of the embedding.
* A C `char` is a signed 8-bit integer.  Character *values* (the argument of
  `htp_base64_decode_single`, the variable `fragment`) are `Int`s in `-128..127`;
  `wrap8` is the conversion of an `int` to `char` (reduction modulo `2^8`).
* Bytes held in memory (the input region, the output region, `decoder->plainchar`)
  are kept as bit patterns, naturals in `0..255`; `wrap8` of a bit pattern is the
  character value read from it.
* The `int` parameters of `htp_base64_decode` are mathematical integers: `length_in`
  is the length of the input list, and the counts of a call never exceed the lengths it
  is given. The conversion of `size_t len` to `int` at the call made by
  `htp_base64_decode_mem` is `int_of_size_t` (a 32-bit `int`, reduction modulo `2^32`).
* The input region is a list of bytes, `length_in` is its length and `codechar` is an
  index into it; the output region is a map from index to byte, so that a store past
  the capacity given by the caller is visible in the store log instead of being lost.
-/

namespace HtpBase64

/-- Conversion of an integer to `char`: the representative modulo `2^8` in `-128..127`. -/
def wrap8 (x : Int) : Int := (x + 128) % 256 - 128

/-- The table `decoding[]` of `htp_base64_decode_single`. -/
def decoding : List Int :=
  [62, -1, -1, -1, 63, 52, 53, 54, 55, 56, 57, 58, 59, 60, 61,
   -1, -1, -1, -2, -1, -1, -1, 0, 1, 2, 3, 4, 5, 6, 7, 8, 9, 10, 11, 12, 13, 14, 15, 16, 17,
   18, 19, 20, 21, 22, 23, 24, 25, -1, -1, -1, -1, -1, -1, 26, 27, 28, 29, 30, 31, 32, 33, 34,
   35, 36, 37, 38, 39, 40, 41, 42, 43, 44, 45, 46, 47, 48, 49, 50, 51]

/-- The constant `static const char decoding_size = sizeof (decoding)`. -/
def decoding_size : Int := wrap8 decoding.length

/-- The index at which `htp_base64_decode_single` reads `decoding[]`: the value of
`value_in` after `value_in -= 43`, or `none` when the range test returns `-1` before the
table is read. -/
def decoding_index (value_in : Int) : Option Int :=
  let value_in := wrap8 (value_in - 43)
  if value_in < 0 ∨ value_in > decoding_size - 1 then none else some value_in

/-- The function `int htp_base64_decode_single(char value_in)`. -/
def htp_base64_decode_single (value_in : Int) : Int :=
  match decoding_index value_in with
  | none => -1
  | some i => decoding.getD i.toNat (-1)

/-- Modelled from the spec: the enum `htp_base64_decodestep` of `htp_base64.h` (the
header is not part of the sources at hand): the four phases of a group, in the order
of the case labels of `htp_base64_decode`. -/
inductive htp_base64_decodestep where
  | step_a
  | step_b
  | step_c
  | step_d
  deriving DecidableEq, Repr

export htp_base64_decodestep (step_a step_b step_c step_d)

/-- Modelled from the spec: the struct `htp_base64_decoder` of `htp_base64.h`: the phase
and the byte under assembly (`char plainchar`, kept as a bit pattern). -/
structure htp_base64_decoder where
  step : htp_base64_decodestep
  plainchar : Nat
  deriving DecidableEq, Repr

/-- The function `htp_base64_decoder_init`. -/
def htp_base64_decoder_init : htp_base64_decoder :=
  { step := step_a, plainchar := 0 }

/-- The variables of a running `htp_base64_decode` call. `codechar` and `plainchar`
are the offsets `codechar - code_in` and `plainchar - plaintext_out`; `out` is the
output region; `reads` and `stores` log, oldest first, the input indices read through
`*codechar++` and the output indices stored to. -/
structure Machine where
  decoder : htp_base64_decoder
  codechar : Nat
  plainchar : Nat
  length_out : Int
  out : Nat → Nat
  reads : List Nat
  stores : List Nat

/-- The store `plaintext_out[i] = v`, logged. -/
def Machine.store (m : Machine) (i v : Nat) : Machine :=
  { m with out := Function.update m.out i v, stores := m.stores ++ [i] }

/-- The return statement through which a call left. -/
inductive Exit where
  | no_room
  | input_end
  | out_full
  deriving DecidableEq, Repr

/-- What a call returns: the `return` taken, the value returned and the final
variables (decoder state, output region, logs). -/
structure Outcome where
  exit : Exit
  ret : Int
  m : Machine

/-- The return taken when `codechar == code_in + length_in` under case label `l`. -/
def input_exhausted (l : htp_base64_decodestep) (m : Machine) : Outcome :=
  { exit := Exit.input_end, ret := m.plainchar,
    m := { m with decoder := { step := l, plainchar := m.out m.plainchar } } }

/-- The return taken when `--length_out == 0`. -/
def output_full (m : Machine) : Outcome :=
  { exit := Exit.out_full, ret := m.plainchar, m := m }

/-- The statement `*plainchar++ |= x; ` followed, when `nxt` is given, by
`*plainchar = nxt;`, and then `--length_out`. -/
def emit (m : Machine) (x : Nat) (nxt : Option Nat) : Machine :=
  let m := m.store m.plainchar ((m.out m.plainchar ||| x) % 256)
  let m := { m with plainchar := m.plainchar + 1 }
  let m := match nxt with
    | some v => m.store m.plainchar (v % 256)
    | none => m
  { m with length_out := m.length_out - 1 }

/-- The `switch`/`while (1)` body of `htp_base64_decode`, entered at case label `l`.
One unit of `fuel` is spent per evaluation of a `do ... while` body; `none` stands
for running out of fuel or for a read outside the input region. -/
def run (code_in : List Nat) : Nat → htp_base64_decodestep → Machine → Option Outcome
  | 0, _, _ => none
  | fuel + 1, l, m =>
    if m.codechar = code_in.length then some (input_exhausted l m)
    else
      match code_in[m.codechar]? with
      | none => none
      | some ch =>
        let fragment := wrap8 (htp_base64_decode_single (wrap8 ch))
        let m := { m with codechar := m.codechar + 1, reads := m.reads ++ [m.codechar] }
        if fragment < 0 then run code_in fuel l m
        else
          let f := fragment.toNat
          match l with
          | step_a =>
            run code_in fuel step_b (m.store m.plainchar (((f &&& 0x03f) <<< 2) % 256))
          | step_b =>
            let m := emit m ((f &&& 0x030) >>> 4) (some ((f &&& 0x00f) <<< 4))
            if m.length_out = 0 then some (output_full m)
            else run code_in fuel step_c m
          | step_c =>
            let m := emit m ((f &&& 0x03c) >>> 2) (some ((f &&& 0x003) <<< 6))
            if m.length_out = 0 then some (output_full m)
            else run code_in fuel step_d m
          | step_d =>
            let m := emit m (f &&& 0x03f) none
            if m.length_out = 0 then some (output_full m)
            else run code_in fuel step_a m

/-- The function `htp_base64_decode(decoder, code_in, length_in, plaintext_out,
length_out)`, with `length_in = code_in.length`. -/
def htp_base64_decode (decoder : htp_base64_decoder) (code_in : List Nat)
    (plaintext_out : Nat → Nat) (length_out : Int) : Option Outcome :=
  let m : Machine :=
    { decoder := decoder, codechar := 0, plainchar := 0, length_out := length_out,
      out := plaintext_out, reads := [], stores := [] }
  if length_out ≤ 0 then some { exit := Exit.no_room, ret := 0, m := m }
  else run code_in (code_in.length + 1) decoder.step (m.store 0 decoder.plainchar)

/-- The bytes a call reports as written: `plaintext_out[0 .. ret-1]`. -/
def Outcome.written (o : Outcome) : List Nat :=
  (List.range o.ret.toNat).map o.m.out

/-- The values `v_0 .. v_(n-1)` that `htp_base64_decode_single` gives for the characters of
an input that are in the base64 alphabet (those it does not map to a negative value), in
order. -/
def alphabet_values (code : List Nat) : List Nat :=
  (code.filter (fun ch : Nat => decide (0 ≤ htp_base64_decode_single (wrap8 ch)))).map
    (fun ch : Nat => (htp_base64_decode_single (wrap8 ch)).toNat)

/-- The six bits of a value, most significant first. -/
def bits6 (v : Nat) : List Bool :=
  [v.testBit 5, v.testBit 4, v.testBit 3, v.testBit 2, v.testBit 1, v.testBit 0]

/-- The bit string obtained by concatenating the values as 6-bit big-endian numbers. -/
def bit_string : List Nat → List Bool
  | [] => []
  | v :: vs => bits6 v ++ bit_string vs

/-- The number written by a list of bits, most significant first. -/
def of_bits (bs : List Bool) : Nat :=
  bs.foldl (fun acc b => 2 * acc + (if b then 1 else 0)) 0

/-- Bits `8k .. 8k+7` of the bit string of the values `vs`, read as a byte. -/
def ref_byte (vs : List Nat) (k : Nat) : Nat :=
  of_bits (((bit_string vs).drop (8 * k)).take 8)

/-- The bytes of an ASCII string, as an input region. -/
def ascii (s : String) : List Nat := s.toList.map Char.toNat

/-! ## Auxiliary definitions used in the proofs

They restate the loop symbol by symbol: `sym` is the test of the `do ... while`
loops, `go` is `run` read along the input that is still to come, and `stream` is the
sequence of bytes that the four phases emit for a sequence of 6-bit values. -/

/-- The value of `fragment` for input byte `ch` when the loop keeps it, `none` when the
loop skips the byte (`fragment < 0`). -/
def sym (ch : Nat) : Option Nat :=
  let fragment := wrap8 (htp_base64_decode_single (wrap8 ch))
  if fragment < 0 then none else some fragment.toNat

/-- The test that keeps an input byte: `htp_base64_decode_single` is not negative on
it, that is, the byte is a character of the base64 alphabet. -/
def kept (ch : Nat) : Bool := decide (0 ≤ htp_base64_decode_single (wrap8 ch))

/-- The kept symbols of an input, in order. -/
def syms (code : List Nat) : List Nat := code.filterMap sym

/-- The case label that follows a case label. -/
def next : htp_base64_decodestep → htp_base64_decodestep
  | step_a => step_b
  | step_b => step_c
  | step_c => step_d
  | step_d => step_a

/-- The bits that symbol `f` contributes to the byte completed under label `l`. -/
def outBits : htp_base64_decodestep → Nat → Nat
  | step_a, _ => 0
  | step_b, f => (f &&& 0x030) >>> 4
  | step_c, f => (f &&& 0x03c) >>> 2
  | step_d, f => f &&& 0x03f

/-- The bits with which symbol `f` starts the next byte under label `l`. -/
def pendBits : htp_base64_decodestep → Nat → Option Nat
  | step_a, f => some ((f &&& 0x03f) <<< 2)
  | step_b, f => some ((f &&& 0x00f) <<< 4)
  | step_c, f => some ((f &&& 0x003) <<< 6)
  | step_d, _ => none

/-- The byte under assembly after symbol `f` under label `l` (`0` after `step_d`, where
nothing is under assembly). -/
def pend (l : htp_base64_decodestep) (f : Nat) : Nat := (pendBits l f).getD 0 % 256

/-- The increment `*codechar++`, logged. -/
def Machine.advance (m : Machine) : Machine :=
  { m with codechar := m.codechar + 1, reads := m.reads ++ [m.codechar] }

/-- The stores made for kept symbol `f` under label `l`. -/
def feed (l : htp_base64_decodestep) (m : Machine) (f : Nat) : Machine :=
  match l with
  | step_a => m.store m.plainchar (((f &&& 0x03f) <<< 2) % 256)
  | _ => emit m (outBits l f) (pendBits l f)

/-- The loop of `run`, by recursion on the input not yet read. -/
def go : htp_base64_decodestep → List Nat → Machine → Outcome
  | l, [], m => input_exhausted l m
  | l, ch :: rest, m =>
    match sym ch with
    | none => go l rest m.advance
    | some f =>
      if l ≠ step_a ∧ (feed l m.advance f).length_out = 0 then
        output_full (feed l m.advance f)
      else go (next l) rest (feed l m.advance f)

/-- The bytes emitted, with room for all of them, for the symbols `vs` from label `l`
with `p` the byte under assembly. -/
def stream : htp_base64_decodestep → Nat → List Nat → List Nat
  | _, _, [] => []
  | l, p, v :: vs =>
    if l = step_a then stream step_b (pend step_a v) vs
    else ((p ||| outBits l v) % 256) :: stream (next l) (pend l v) vs

/-- The label reached from `l` after the symbols `vs`. -/
def phase : htp_base64_decodestep → List Nat → htp_base64_decodestep
  | l, [] => l
  | l, _ :: vs => phase (next l) vs

/-- The byte under assembly after the symbols `vs` from label `l` and byte `p`. -/
def fpend : htp_base64_decodestep → Nat → List Nat → Nat
  | _, p, [] => p
  | l, _, v :: vs => fpend (next l) (pend l v) vs

/-- The bytes `out[i], ..., out[i+k-1]` of an output region. -/
def window (out : Nat → Nat) (i : Nat) : Nat → List Nat
  | 0 => []
  | k + 1 => out i :: window out (i + 1) k

/-- The variables on entry to the `switch` of `htp_base64_decode`, that is after
`*plainchar = decoder->plainchar`. -/
def entry (d : htp_base64_decoder) (out : Nat → Nat) (c : Int) : Machine :=
  { decoder := d, codechar := 0, plainchar := 0, length_out := c,
    out := Function.update out 0 d.plainchar, reads := [], stores := [0] }

/-- The position of a label in the group: `step_a` is `0`, `step_d` is `3`. -/
def idx : htp_base64_decodestep → Nat
  | step_a => 0
  | step_b => 1
  | step_c => 2
  | step_d => 3

/-! ## The symbol decoder -/

theorem wrap8_mod (x : Int) : wrap8 (x % 256) = wrap8 x := by
  unfold wrap8; omega

theorem wrap8_natCast_mod (c : Nat) : wrap8 ((c % 256 : Nat) : Int) = wrap8 c := by
  unfold wrap8; omega

theorem sym_lt (ch v : Nat) (h : sym ch = some v) : v < 64 := by
  have key : ∀ c : Fin 256, ∀ v, sym c.val = some v → v < 64 := by
    set_option maxRecDepth 100000 in decide
  have hm : sym ch = sym (ch % 256) := by
    simp only [sym, wrap8_natCast_mod]
  rw [hm] at h
  exact key ⟨ch % 256, Nat.mod_lt _ (by norm_num)⟩ v h

/-! ## The loop, read along the remaining input -/

theorem run_succ (code_in : List Nat) (fuel : Nat) (l : htp_base64_decodestep)
    (m : Machine) :
    run code_in (fuel + 1) l m =
      if m.codechar = code_in.length then some (input_exhausted l m)
      else match code_in[m.codechar]? with
        | none => none
        | some ch =>
          match sym ch with
          | none => run code_in fuel l m.advance
          | some f =>
            if l ≠ step_a ∧ (feed l m.advance f).length_out = 0 then
              some (output_full (feed l m.advance f))
            else run code_in fuel (next l) (feed l m.advance f) := by
  rw [run]
  split
  · rfl
  · split
    · rfl
    · rename_i ch _
      simp only [sym]
      split
      · rfl
      · cases l <;> simp [feed, next, outBits, pendBits, Machine.advance]

theorem go_nil (l : htp_base64_decodestep) (m : Machine) :
    go l [] m = input_exhausted l m := rfl

theorem go_cons (l : htp_base64_decodestep) (m : Machine) (ch : Nat) (rest : List Nat) :
    go l (ch :: rest) m =
      match sym ch with
      | none => go l rest m.advance
      | some f =>
        if l ≠ step_a ∧ (feed l m.advance f).length_out = 0 then
          output_full (feed l m.advance f)
        else go (next l) rest (feed l m.advance f) := rfl

theorem go_skip (l : htp_base64_decodestep) (m : Machine) (ch : Nat) (rest : List Nat)
    (h : sym ch = none) : go l (ch :: rest) m = go l rest m.advance := by
  rw [go_cons, h]

theorem go_keep (l : htp_base64_decodestep) (m : Machine) (ch f : Nat) (rest : List Nat)
    (h : sym ch = some f) :
    go l (ch :: rest) m =
      if l ≠ step_a ∧ (feed l m.advance f).length_out = 0 then
        output_full (feed l m.advance f)
      else go (next l) rest (feed l m.advance f) := by
  rw [go_cons, h]

theorem run_eq_go (code_in : List Nat) (fuel : Nat) (l : htp_base64_decodestep)
    (m : Machine) (hle : m.codechar ≤ code_in.length)
    (hfuel : code_in.length - m.codechar < fuel) :
    run code_in fuel l m = some (go l (code_in.drop m.codechar) m) := by
  induction fuel generalizing l m with
  | zero => omega
  | succ n ih =>
    rw [run_succ]
    by_cases hend : m.codechar = code_in.length
    · rw [if_pos hend, hend, List.drop_length, go_nil]
    · have hlt : m.codechar < code_in.length := by omega
      have hdrop : code_in.drop m.codechar
          = code_in[m.codechar] :: code_in.drop (m.codechar + 1) :=
        List.drop_eq_getElem_cons hlt
      have hget : code_in[m.codechar]? = some code_in[m.codechar] :=
        List.getElem?_eq_getElem hlt
      rw [hdrop, if_neg hend, hget]
      have hadv : (m.advance).codechar = m.codechar + 1 := rfl
      have hfeed : ∀ l f, (feed l m.advance f).codechar = m.codechar + 1 := by
        intro l f; cases l <;> rfl
      cases hs : sym code_in[m.codechar] with
      | none =>
        rw [go_skip _ _ _ _ hs]
        simp only [hs]
        rw [ih l m.advance (by rw [hadv]; omega) (by rw [hadv]; omega), hadv]
      | some f =>
        rw [go_keep _ _ _ _ _ hs]
        simp only [hs]
        split
        · rfl
        · rw [ih (next l) (feed l m.advance f) (by rw [hfeed]; omega) (by rw [hfeed]; omega),
            hfeed]

/-! ## Effect of one kept symbol on the variables -/

theorem feed_a_out (m : Machine) (f : Nat) :
    (feed step_a m f).out = Function.update m.out m.plainchar (pend step_a f) := rfl

theorem feed_a_plainchar (m : Machine) (f : Nat) :
    (feed step_a m f).plainchar = m.plainchar := rfl

theorem feed_a_length_out (m : Machine) (f : Nat) :
    (feed step_a m f).length_out = m.length_out := rfl

theorem feed_decoder (l : htp_base64_decodestep) (m : Machine) (f : Nat) :
    (feed l m f).decoder = m.decoder := by
  cases l <;> rfl

theorem feed_codechar (l : htp_base64_decodestep) (m : Machine) (f : Nat) :
    (feed l m f).codechar = m.codechar := by
  cases l <;> rfl

theorem feed_reads (l : htp_base64_decodestep) (m : Machine) (f : Nat) :
    (feed l m f).reads = m.reads := by
  cases l <;> rfl

theorem feed_plainchar (l : htp_base64_decodestep) (m : Machine) (f : Nat)
    (hl : l ≠ step_a) : (feed l m f).plainchar = m.plainchar + 1 := by
  cases l <;> first | exact absurd rfl hl | rfl

theorem feed_length_out (l : htp_base64_decodestep) (m : Machine) (f : Nat)
    (hl : l ≠ step_a) : (feed l m f).length_out = m.length_out - 1 := by
  cases l <;> first | exact absurd rfl hl | rfl

theorem feed_out_byte (l : htp_base64_decodestep) (m : Machine) (f : Nat)
    (hl : l ≠ step_a) :
    (feed l m f).out m.plainchar = (m.out m.plainchar ||| outBits l f) % 256 := by
  cases l <;> first | exact absurd rfl hl | simp [feed, emit, Machine.store, pendBits]

theorem feed_out_below (l : htp_base64_decodestep) (m : Machine) (f j : Nat)
    (hj : j < m.plainchar) : (feed l m f).out j = m.out j := by
  have h1 : j ≠ m.plainchar := by omega
  have h2 : j ≠ m.plainchar + 1 := by omega
  cases l <;> simp [feed, emit, Machine.store, pendBits, Function.update, h1, h2]

theorem feed_out_pend (l : htp_base64_decodestep) (m : Machine) (f : Nat)
    (hl : l ≠ step_a) (hd : l ≠ step_d) :
    (feed l m f).out (m.plainchar + 1) = pend l f := by
  cases l
  · exact absurd rfl hl
  · simp [feed, emit, Machine.store, pendBits, pend]
  · simp [feed, emit, Machine.store, pendBits, pend]
  · exact absurd rfl hd

/-! ## The emitted byte sequence -/

theorem stream_a_irrel (p q : Nat) (vs : List Nat) :
    stream step_a p vs = stream step_a q vs := by
  cases vs <;> simp [stream]

theorem fpend_a_irrel (p q : Nat) (vs : List Nat) (h : vs ≠ []) :
    fpend step_a p vs = fpend step_a q vs := by
  cases vs with
  | nil => exact absurd rfl h
  | cons v vs => simp [fpend]

theorem stream_length (vs : List Nat) : ∀ (l : htp_base64_decodestep) (p : Nat),
    (stream l p vs).length = (3 * (vs.length + idx l)) / 4 - (3 * idx l) / 4 := by
  induction vs with
  | nil => intro l p; simp [stream]
  | cons v vs ih =>
    intro l p
    cases l <;> simp [stream, ih, next, idx] <;> omega

theorem stream_length_le (l : htp_base64_decodestep) (p : Nat) (vs : List Nat) :
    (stream l p vs).length ≤ vs.length := by
  rw [stream_length]; cases l <;> simp [idx] <;> omega

theorem stream_append (vs ws : List Nat) : ∀ (l : htp_base64_decodestep) (p : Nat),
    stream l p (vs ++ ws) = stream l p vs ++ stream (phase l vs) (fpend l p vs) ws := by
  induction vs with
  | nil => intro l p; simp [stream, phase, fpend]
  | cons v vs ih =>
    intro l p
    cases l <;> simp [stream, phase, fpend, ih, next]

theorem syms_append (a b : List Nat) : syms (a ++ b) = syms a ++ syms b := by
  simp [syms, List.filterMap_append]

theorem syms_length_le (a : List Nat) : (syms a).length ≤ a.length := by
  simpa [syms] using List.length_filterMap_le sym a

theorem window_eq_map (out : Nat → Nat) (k : Nat) : ∀ i,
    window out i k = (List.range k).map (fun j => out (i + j)) := by
  induction k with
  | zero => intro i; simp [window]
  | succ k ih =>
    intro i
    rw [window, ih, List.range_succ_eq_map]
    simp [Nat.add_comm, Nat.add_left_comm]

theorem syms_cons_none (ch : Nat) (rest : List Nat) (h : sym ch = none) :
    syms (ch :: rest) = syms rest := by
  simp [syms, List.filterMap_cons, h]

theorem syms_cons_some (ch f : Nat) (rest : List Nat) (h : sym ch = some f) :
    syms (ch :: rest) = f :: syms rest := by
  simp [syms, List.filterMap_cons, h]

theorem stream_cons_a (p v : Nat) (vs : List Nat) :
    stream step_a p (v :: vs) = stream step_b (pend step_a v) vs := by
  simp [stream]

theorem stream_cons_emit (l : htp_base64_decodestep) (p v : Nat) (vs : List Nat)
    (hl : l ≠ step_a) :
    stream l p (v :: vs) = ((p ||| outBits l v) % 256) :: stream (next l) (pend l v) vs := by
  simp [stream, hl]

/-- After an emitting symbol the rest of the stream is the one read off the output region. -/
theorem stream_after_feed (l : htp_base64_decodestep) (m : Machine) (f : Nat)
    (vs : List Nat) (hl : l ≠ step_a) :
    stream (next l) ((feed l m f).out (m.plainchar + 1)) vs
      = stream (next l) (pend l f) vs := by
  by_cases hd : l = step_d
  · subst hd; exact stream_a_irrel _ _ _
  · rw [feed_out_pend l m f hl hd]

theorem fpend_after_feed (l : htp_base64_decodestep) (m : Machine) (f : Nat)
    (vs : List Nat) (hl : l ≠ step_a) (hph : phase (next l) vs ≠ step_a) :
    fpend (next l) ((feed l m f).out (m.plainchar + 1)) vs
      = fpend (next l) (pend l f) vs := by
  by_cases hd : l = step_d
  · subst hd
    cases vs with
    | nil => exact absurd rfl hph
    | cons v vs => exact fpend_a_irrel _ _ _ (by simp)
  · rw [feed_out_pend l m f hl hd]

/-- What `go` does, in terms of the emitted stream `s` and the room `r` left:
bytes below `plainchar` are kept, `min |s| r` bytes are written from `plainchar` on, and
the decoder state is written exactly when the stream fits. -/
theorem go_spec (code : List Nat) : ∀ (l : htp_base64_decodestep) (m : Machine) (r : Nat),
    m.length_out = (r : Int) → 0 < r →
    (∀ j, j < m.plainchar → (go l code m).m.out j = m.out j) ∧
    (go l code m).ret
      = ((m.plainchar + min (stream l (m.out m.plainchar) (syms code)).length r : Nat) : Int) ∧
    window (go l code m).m.out m.plainchar
        (min (stream l (m.out m.plainchar) (syms code)).length r)
      = (stream l (m.out m.plainchar) (syms code)).take r ∧
    ((stream l (m.out m.plainchar) (syms code)).length < r →
      (go l code m).exit = Exit.input_end ∧
      (go l code m).m.decoder.step = phase l (syms code) ∧
      (go l code m).m.decoder.plainchar
        = (go l code m).m.out
            (m.plainchar + (stream l (m.out m.plainchar) (syms code)).length) ∧
      (phase l (syms code) ≠ step_a ∨ syms code = [] →
        (go l code m).m.out
            (m.plainchar + (stream l (m.out m.plainchar) (syms code)).length)
          = fpend l (m.out m.plainchar) (syms code))) ∧
    (r ≤ (stream l (m.out m.plainchar) (syms code)).length →
      (go l code m).exit = Exit.out_full ∧ (go l code m).m.decoder = m.decoder) := by
  induction code with
  | nil =>
    intro l m r hr hpos
    simp [go_nil, syms, stream, input_exhausted, window, phase, fpend]
    omega
  | cons ch rest ih =>
    intro l m r hr hpos
    cases hs : sym ch with
    | none =>
      rw [go_skip _ _ _ _ hs, syms_cons_none _ _ hs]
      exact ih l m.advance r hr hpos
    | some f =>
      rw [go_keep _ _ _ _ _ hs, syms_cons_some _ _ _ hs]
      by_cases hl : l = step_a
      · subst hl
        rw [if_neg (by simp), stream_cons_a]
        have hout : (feed step_a m.advance f).out m.plainchar = pend step_a f := by
          rw [feed_a_out]; exact Function.update_same _ _ _
        have hP : (feed step_a m.advance f).plainchar = m.plainchar := rfl
        obtain ⟨h1, h2, h3, h4, h5⟩ := ih step_b (feed step_a m.advance f) r hr hpos
        rw [hP, hout] at h2 h3 h4 h5
        rw [hP] at h1
        refine ⟨?_, h2, h3, ?_, ?_⟩
        · intro j hj
          rw [show next step_a = step_b from rfl, h1 j hj]
          exact feed_out_below _ _ _ _ hj
        · intro hlen
          obtain ⟨e1, e2, e3, e4⟩ := h4 hlen
          refine ⟨e1, e2, e3, ?_⟩
          intro hph
          have hph2 : phase step_b (syms rest) ≠ step_a := by
            rcases hph with h | h
            · exact h
            · exact absurd h (by simp)
          exact e4 (Or.inl hph2)
        · intro hlen
          obtain ⟨e1, e2⟩ := h5 hlen
          exact ⟨e1, e2⟩
      · have hP : (feed l m.advance f).plainchar = m.plainchar + 1 :=
          feed_plainchar l m.advance f hl
        have hL : (feed l m.advance f).length_out = ((r - 1 : Nat) : Int) := by
          rw [feed_length_out l m.advance f hl]
          change m.length_out - 1 = _
          rw [hr]; omega
        have hbyte : (feed l m.advance f).out m.plainchar
            = (m.out m.plainchar ||| outBits l f) % 256 := feed_out_byte l m.advance f hl
        rw [stream_cons_emit _ _ _ _ hl]
        by_cases hr1 : r = 1
        · subst hr1
          have hz : (feed l m.advance f).length_out = 0 := by rw [hL]; rfl
          rw [if_pos ⟨hl, hz⟩]
          refine ⟨?_, ?_, ?_, ?_, ?_⟩
          · intro j hj
            exact feed_out_below _ _ _ _ hj
          · simp [output_full, hP]
          · simp [output_full, window, hbyte]
          · intro hlen
            simp at hlen
          · intro _
            exact ⟨rfl, feed_decoder _ _ _⟩
        · have hz : ¬ (l ≠ step_a ∧ (feed l m.advance f).length_out = 0) := by
            rw [hL]; intro h; have := h.2; omega
          rw [if_neg hz]
          obtain ⟨h1, h2, h3, h4, h5⟩ :=
            ih (next l) (feed l m.advance f) (r - 1) hL (by omega)
          rw [hP] at h1 h2 h3 h4 h5
          have hst := stream_after_feed l m.advance f (syms rest) hl
          change stream (next l) ((feed l m.advance f).out (m.plainchar + 1)) (syms rest)
            = _ at hst
          rw [hst] at h2 h3 h4 h5
          have hkeep : (go (next l) rest (feed l m.advance f)).m.out m.plainchar
              = (m.out m.plainchar ||| outBits l f) % 256 := by
            rw [h1 m.plainchar (by omega), hbyte]
          refine ⟨?_, ?_, ?_, ?_, ?_⟩
          · intro j hj
            rw [h1 j (by omega)]
            exact feed_out_below _ _ _ _ hj
          · rw [h2]; simp only [List.length_cons]; congr 1; omega
          · have hmin : min ((stream (next l) (pend l f) (syms rest)).length + 1) r
                = min (stream (next l) (pend l f) (syms rest)).length (r - 1) + 1 := by
              omega
            have htake : r = (r - 1) + 1 := by omega
            simp only [List.length_cons]
            rw [hmin, window, hkeep, h3]
            conv_rhs => rw [htake, List.take_succ_cons]
          · intro hlen
            simp only [List.length_cons] at hlen ⊢
            obtain ⟨e1, e2, e3, e4⟩ := h4 (by omega)
            have hidx : m.plainchar + ((stream (next l) (pend l f) (syms rest)).length + 1)
                = m.plainchar + 1 + (stream (next l) (pend l f) (syms rest)).length := by
              omega
            rw [hidx]
            refine ⟨e1, e2, e3, ?_⟩
            intro hph
            have hph2 : phase (next l) (syms rest) ≠ step_a := by
              rcases hph with h | h
              · exact h
              · exact absurd h (by simp)
            rw [e4 (Or.inl hph2)]
            exact fpend_after_feed l m.advance f (syms rest) hl hph2
          · intro hlen
            simp only [List.length_cons] at hlen
            obtain ⟨e1, e2⟩ := h5 (by omega)
            exact ⟨e1, by rw [e2]; exact feed_decoder _ _ _⟩

/-! ## The logs -/

theorem feed_plainchar_le (l : htp_base64_decodestep) (m : Machine) (f : Nat) :
    m.plainchar ≤ (feed l m f).plainchar ∧ (feed l m f).plainchar ≤ m.plainchar + 1 := by
  cases l <;> simp [feed, emit, Machine.store, pendBits]

theorem feed_stores (l : htp_base64_decodestep) (m : Machine) (f i : Nat)
    (hi : i ∈ (feed l m f).stores) :
    i ∈ m.stores ∨ (m.plainchar ≤ i ∧ i ≤ (feed l m f).plainchar) := by
  cases l <;> simp only [feed, emit, Machine.store, pendBits, outBits, List.mem_append,
    List.mem_singleton] at hi ⊢
  · rcases hi with h | h
    · exact Or.inl h
    · exact Or.inr (by omega)
  · rcases hi with (h | h) | h
    · exact Or.inl h
    · exact Or.inr (by omega)
    · exact Or.inr (by omega)
  · rcases hi with (h | h) | h
    · exact Or.inl h
    · exact Or.inr (by omega)
    · exact Or.inr (by omega)
  · rcases hi with h | h
    · exact Or.inl h
    · exact Or.inr (by omega)

theorem go_ret (code : List Nat) : ∀ (l : htp_base64_decodestep) (m : Machine),
    (go l code m).ret = ((go l code m).m.plainchar : Int) := by
  induction code with
  | nil => intro l m; rfl
  | cons ch rest ih =>
    intro l m
    cases hs : sym ch with
    | none => rw [go_skip _ _ _ _ hs]; exact ih _ _
    | some f =>
      rw [go_keep _ _ _ _ _ hs]
      split
      · rfl
      · exact ih _ _

theorem go_stores (code : List Nat) : ∀ (l : htp_base64_decodestep) (m : Machine),
    m.plainchar ≤ (go l code m).m.plainchar ∧
    ∀ i, i ∈ (go l code m).m.stores →
      i ∈ m.stores ∨ (m.plainchar ≤ i ∧ i ≤ (go l code m).m.plainchar) := by
  induction code with
  | nil => intro l m; exact ⟨Nat.le_refl _, fun i hi => Or.inl hi⟩
  | cons ch rest ih =>
    intro l m
    cases hs : sym ch with
    | none => rw [go_skip _ _ _ _ hs]; exact ih l m.advance
    | some f =>
      rw [go_keep _ _ _ _ _ hs]
      have hle := feed_plainchar_le l m.advance f
      have hst := feed_stores l m.advance f
      change m.plainchar ≤ _ ∧ _ ≤ m.plainchar + 1 at hle
      change ∀ i, _ → i ∈ m.stores ∨ (m.plainchar ≤ i ∧ _) at hst
      split
      · exact ⟨hle.1, hst⟩
      · obtain ⟨g1, g2⟩ := ih (next l) (feed l m.advance f)
        refine ⟨by omega, ?_⟩
        intro i hi
        rcases g2 i hi with h | h
        · rcases hst i h with h' | h'
          · exact Or.inl h'
          · exact Or.inr ⟨h'.1, by omega⟩
        · exact Or.inr ⟨by omega, h.2⟩

theorem go_reads (code : List Nat) : ∀ (l : htp_base64_decodestep) (m : Machine),
    ∃ k, k ≤ code.length ∧ (go l code m).m.codechar = m.codechar + k ∧
      (go l code m).m.reads = m.reads ++ List.range' m.codechar k := by
  induction code with
  | nil => intro l m; exact ⟨0, by simp [go_nil, input_exhausted]⟩
  | cons ch rest ih =>
    intro l m
    have hshift : ∀ k, m.reads ++ [m.codechar] ++ List.range' (m.codechar + 1) k
        = m.reads ++ List.range' m.codechar (k + 1) := by
      intro k; simp [List.range'_succ]
    cases hs : sym ch with
    | none =>
      rw [go_skip _ _ _ _ hs]
      obtain ⟨k, hk, h1, h2⟩ := ih l m.advance
      refine ⟨k + 1, by simp only [List.length_cons]; omega, ?_, ?_⟩
      · rw [h1]; change m.codechar + 1 + k = _; omega
      · rw [h2]; exact hshift k
    | some f =>
      rw [go_keep _ _ _ _ _ hs]
      split
      · refine ⟨1, by simp, ?_, ?_⟩
        · change (feed l m.advance f).codechar = _
          rw [feed_codechar]; rfl
        · change (feed l m.advance f).reads = _
          rw [feed_reads]; simp [Machine.advance]
      · obtain ⟨k, hk, h1, h2⟩ := ih (next l) (feed l m.advance f)
        rw [feed_codechar] at h1 h2
        rw [feed_reads] at h2
        refine ⟨k + 1, by simp only [List.length_cons]; omega, ?_, ?_⟩
        · rw [h1]; change m.codechar + 1 + k = _; omega
        · rw [h2]; exact hshift k

/-! ## The call as a whole -/

theorem decode_eq_go (d : htp_base64_decoder) (code : List Nat) (out : Nat → Nat)
    (c : Int) (hc : 0 < c) :
    htp_base64_decode d code out c = some (go d.step code (entry d out c)) := by
  unfold htp_base64_decode
  simp only []
  rw [if_neg (by omega)]
  exact run_eq_go code (code.length + 1) d.step _ (Nat.zero_le _) (by simp [Machine.store])

theorem written_eq_window (o : Outcome) (k : Nat) (h : o.ret = (k : Int)) :
    o.written = window o.m.out 0 k := by
  rw [window_eq_map, Outcome.written, h]
  simp

/-- The call in terms of the emitted stream `s` of the kept symbols: `min |s| c`
bytes of `s` are written; the state is saved when `s` fits and untouched when not. -/
theorem decode_spec (d : htp_base64_decoder) (code : List Nat) (out : Nat → Nat)
    (c : Int) (hc : 0 < c) :
    ∃ o, htp_base64_decode d code out c = some o ∧
      o.ret = ((min (stream d.step d.plainchar (syms code)).length c.toNat : Nat) : Int) ∧
      o.written = (stream d.step d.plainchar (syms code)).take c.toNat ∧
      (((stream d.step d.plainchar (syms code)).length : Int) < c →
        o.exit = Exit.input_end ∧ o.m.decoder.step = phase d.step (syms code) ∧
        (phase d.step (syms code) ≠ step_a ∨ syms code = [] →
          o.m.decoder.plainchar = fpend d.step d.plainchar (syms code))) ∧
      (c ≤ ((stream d.step d.plainchar (syms code)).length : Int) →
        o.exit = Exit.out_full ∧ o.m.decoder = d) := by
  refine ⟨_, decode_eq_go d code out c hc, ?_⟩
  have hr : (entry d out c).length_out = ((c.toNat : Nat) : Int) := by
    change c = _; omega
  obtain ⟨_, h2, h3, h4, h5⟩ := go_spec code d.step (entry d out c) c.toNat hr (by omega)
  have hout : (entry d out c).out (entry d out c).plainchar = d.plainchar := by
    change Function.update out 0 d.plainchar 0 = d.plainchar
    exact Function.update_same _ _ _
  rw [hout] at h2 h3 h4 h5
  change _ = (((0 + _ : Nat)) : Int) at h2
  change window _ 0 _ = _ at h3
  simp only [Nat.zero_add] at h2 h4
  refine ⟨h2, ?_, ?_, ?_⟩
  · rw [written_eq_window _ _ h2, h3]
  · intro hlen
    obtain ⟨e1, e2, e3, e4⟩ := h4 (by omega)
    change _ ∧ _ ∧ (_ → _ = fpend _ _ _)
    refine ⟨e1, e2, fun hph => ?_⟩
    exact e3.trans (e4 hph)
  · intro hlen
    exact h5 (by omega)

theorem phase_append (vs ws : List Nat) : ∀ (l : htp_base64_decodestep),
    phase l (vs ++ ws) = phase (phase l vs) ws := by
  induction vs with
  | nil => intro l; rfl
  | cons v vs ih => intro l; simp [phase, ih]

theorem fpend_append (vs ws : List Nat) : ∀ (l : htp_base64_decodestep) (p : Nat),
    fpend l p (vs ++ ws) = fpend (phase l vs) (fpend l p vs) ws := by
  induction vs with
  | nil => intro l p; rfl
  | cons v vs ih => intro l p; simp [phase, fpend, ih]

/-- Every entry of `decoding[]`, and the default `-1`, lies in `-2..63`. -/
theorem decoding_range (n : Nat) :
    -2 ≤ decoding.getD n (-1) ∧ decoding.getD n (-1) ≤ 63 := by
  by_cases h : n < 80
  · have key : ∀ k : Fin 80, -2 ≤ decoding.getD k.val (-1) ∧ decoding.getD k.val (-1) ≤ 63 := by
      decide
    exact key ⟨n, h⟩
  · have hd : decoding.getD n (-1) = -1 := by
      apply List.getD_eq_default
      simp [decoding]; omega
    rw [hd]; omega

theorem single_range (x : Int) :
    -2 ≤ htp_base64_decode_single x ∧ htp_base64_decode_single x ≤ 63 := by
  unfold htp_base64_decode_single
  split
  · omega
  · exact decoding_range _

theorem wrap8_single (x : Int) :
    wrap8 (htp_base64_decode_single x) = htp_base64_decode_single x := by
  have h := single_range x
  unfold wrap8; omega

theorem sym_eq (ch : Nat) :
    sym ch = if htp_base64_decode_single (wrap8 ch) < 0 then none
      else some (htp_base64_decode_single (wrap8 ch)).toNat := by
  simp only [sym, wrap8_single]

theorem kept_iff (ch : Nat) : kept ch = true ↔ ¬ htp_base64_decode_single (wrap8 ch) < 0 := by
  simp [kept]

theorem syms_eq_filter_map (code : List Nat) :
    syms code = (code.filter kept).map
      (fun ch : Nat => (htp_base64_decode_single (wrap8 ch)).toNat) := by
  induction code with
  | nil => rfl
  | cons ch rest ih =>
    by_cases h : htp_base64_decode_single (wrap8 ch) < 0
    · have hs : sym ch = none := by rw [sym_eq, if_pos h]
      have hk : ¬ kept ch = true := fun hk => (kept_iff ch).1 hk h
      rw [syms_cons_none _ _ hs, ih, List.filter_cons_of_neg hk]
    · have hs : sym ch = some (htp_base64_decode_single (wrap8 ch)).toNat := by
        rw [sym_eq, if_neg h]
      have hk : kept ch = true := (kept_iff ch).2 h
      rw [syms_cons_some _ _ _ hs, ih, List.filter_cons_of_pos hk, List.map_cons]

theorem syms_filter (code : List Nat) : syms (code.filter kept) = syms code := by
  induction code with
  | nil => rfl
  | cons ch rest ih =>
    by_cases h : htp_base64_decode_single (wrap8 ch) < 0
    · have hs : sym ch = none := by rw [sym_eq, if_pos h]
      have hk : ¬ kept ch = true := fun hk => (kept_iff ch).1 hk h
      rw [syms_cons_none _ _ hs, List.filter_cons_of_neg hk, ih]
    · have hs : sym ch = some (htp_base64_decode_single (wrap8 ch)).toNat := by
        rw [sym_eq, if_neg h]
      have hk : kept ch = true := (kept_iff ch).2 h
      rw [syms_cons_some _ _ _ hs, List.filter_cons_of_pos hk, syms_cons_some _ _ _ hs, ih]

theorem syms_length (code : List Nat) : (syms code).length = (code.filter kept).length := by
  rw [syms_eq_filter_map, List.length_map]

theorem take_of_length_lt (s : List Nat) (c : Int) (h : (s.length : Int) < c) :
    s.take c.toNat = s := by
  apply List.take_of_length_le; omega

theorem stream_lt_of_length_lt (l : htp_base64_decodestep) (p : Nat) (code : List Nat)
    (c : Int) (h : (code.length : Int) < c) :
    ((stream l p (syms code)).length : Int) < c := by
  have h1 := stream_length_le l p (syms code)
  have h2 := syms_length_le code
  omega

/-- With room for more bytes than the input is long the call ends at the end of the
input, having written the whole stream of the kept symbols. -/
theorem decode_roomy (d : htp_base64_decoder) (code : List Nat) (out : Nat → Nat)
    (c : Int) (hc : (code.length : Int) < c) :
    ∃ o, htp_base64_decode d code out c = some o ∧
      o.ret = ((stream d.step d.plainchar (syms code)).length : Int) ∧
      o.written = stream d.step d.plainchar (syms code) ∧
      o.exit = Exit.input_end ∧ o.m.decoder.step = phase d.step (syms code) ∧
      (phase d.step (syms code) ≠ step_a ∨ syms code = [] →
          o.m.decoder.plainchar = fpend d.step d.plainchar (syms code)) := by
  have hlt := stream_lt_of_length_lt d.step d.plainchar code c hc
  obtain ⟨o, h0, h1, h2, h3, _⟩ := decode_spec d code out c (by omega)
  obtain ⟨e1, e2, e3⟩ := h3 hlt
  refine ⟨o, h0, ?_, ?_, e1, e2, e3⟩
  · rw [h1]; congr 1; omega
  · rw [h2, take_of_length_lt _ _ hlt]

/-- The call made by `htp_base64_decode_mem`: fresh state, capacity equal to the input
length. -/
theorem decode_scratch (code : List Nat) (out : Nat → Nat) :
    ∃ o, htp_base64_decode htp_base64_decoder_init code out code.length = some o ∧
      o.ret = ((3 * (syms code).length / 4 : Nat) : Int) ∧
      o.written = stream step_a 0 (syms code) ∧
      o.exit ≠ Exit.out_full ∧ (1 ≤ code.length → o.exit = Exit.input_end) ∧
      ∀ i ∈ o.m.stores, i < code.length := by
  by_cases hn : code.length = 0
  · have hnil : code = [] := List.length_eq_zero.mp hn
    subst hnil
    refine ⟨_, rfl, ?_, ?_, ?_, ?_, ?_⟩
    · rfl
    · rfl
    · intro h; cases h
    · intro h; simp at h
    · intro i hi; cases hi
  · have hpos : (0 : Int) < code.length := by omega
    have hlen : (stream step_a 0 (syms code)).length = 3 * (syms code).length / 4 := by
      rw [stream_length]; simp [idx]
    have hk := syms_length_le code
    have hlt : ((stream step_a 0 (syms code)).length : Int) < code.length := by
      rw [hlen]; omega
    have hgo := decode_eq_go htp_base64_decoder_init code out code.length hpos
    obtain ⟨o, a0, a1, a2, a3, _⟩ :=
      decode_spec htp_base64_decoder_init code out code.length hpos
    have a1' : o.ret = ((min (stream step_a 0 (syms code)).length
        (code.length : Int).toNat : Nat) : Int) := a1
    have a2' : o.written = (stream step_a 0 (syms code)).take (code.length : Int).toNat := a2
    have a3' : o.exit = Exit.input_end := (a3 hlt).1
    have ho : o = go step_a code (entry htp_base64_decoder_init out code.length) := by
      rw [a0] at hgo; exact Option.some.inj hgo
    refine ⟨o, a0, ?_, ?_, ?_, fun _ => a3', ?_⟩
    · rw [a1', ← hlen]; congr 1; omega
    · rw [a2', take_of_length_lt _ _ hlt]
    · rw [a3']; intro h; cases h
    · intro i hi
      have hret := go_ret code step_a (entry htp_base64_decoder_init out code.length)
      obtain ⟨_, hst⟩ := go_stores code step_a (entry htp_base64_decoder_init out code.length)
      rw [← ho] at hret hst
      rcases hst i hi with h | h
      · have h0 : i = 0 := by
          change i ∈ [0] at h
          simpa using h
        omega
      · have : ((o.m.plainchar : Nat) : Int) = ((min (stream step_a 0 (syms code)).length
            (code.length : Int).toNat : Nat) : Int) := by rw [← hret, a1']
        omega

/-! ## The emitted bytes as slices of the bit string -/

set_option maxRecDepth 1000000 in
theorem byte_b_fin : ∀ v0 v1 : Fin 64, (pend step_a v0.val ||| outBits step_b v1.val) % 256
    = of_bits (bits6 v0.val ++ (bits6 v1.val).take 2) := by
  decide

set_option maxRecDepth 1000000 in
theorem byte_c_fin : ∀ v1 v2 : Fin 64, (pend step_b v1.val ||| outBits step_c v2.val) % 256
    = of_bits ((bits6 v1.val).drop 2 ++ (bits6 v2.val).take 4) := by
  decide

set_option maxRecDepth 1000000 in
theorem byte_d_fin : ∀ v2 v3 : Fin 64, (pend step_c v2.val ||| outBits step_d v3.val) % 256
    = of_bits ((bits6 v2.val).drop 4 ++ bits6 v3.val) := by
  decide

theorem byte_b (v0 v1 : Nat) (h0 : v0 < 64) (h1 : v1 < 64) :
    (pend step_a v0 ||| outBits step_b v1) % 256
      = of_bits (bits6 v0 ++ (bits6 v1).take 2) := byte_b_fin ⟨v0, h0⟩ ⟨v1, h1⟩

theorem byte_c (v1 v2 : Nat) (h1 : v1 < 64) (h2 : v2 < 64) :
    (pend step_b v1 ||| outBits step_c v2) % 256
      = of_bits ((bits6 v1).drop 2 ++ (bits6 v2).take 4) := byte_c_fin ⟨v1, h1⟩ ⟨v2, h2⟩

theorem byte_d (v2 v3 : Nat) (h2 : v2 < 64) (h3 : v3 < 64) :
    (pend step_c v2 ||| outBits step_d v3) % 256
      = of_bits ((bits6 v2).drop 4 ++ bits6 v3) := byte_d_fin ⟨v2, h2⟩ ⟨v3, h3⟩

theorem stream_group (p v0 v1 v2 v3 : Nat) (rest : List Nat) :
    stream step_a p (v0 :: v1 :: v2 :: v3 :: rest)
      = (pend step_a v0 ||| outBits step_b v1) % 256
        :: (pend step_b v1 ||| outBits step_c v2) % 256
        :: (pend step_c v2 ||| outBits step_d v3) % 256
        :: stream step_a 0 rest := by
  simp [stream, next, pend, pendBits]

theorem ref_byte_shift (v0 v1 v2 v3 : Nat) (rest : List Nat) (j : Nat) :
    ref_byte (v0 :: v1 :: v2 :: v3 :: rest) (j + 3) = ref_byte rest j := by
  have h : ∀ l : List Bool, List.drop (8 * (j + 3)) l = List.drop (8 * j) (List.drop 24 l) := by
    intro l
    rw [List.drop_drop]
    congr 1
    omega
  simp only [ref_byte, h]
  rfl

theorem ref_byte_0 (v0 v1 : Nat) (rest : List Nat) :
    ref_byte (v0 :: v1 :: rest) 0 = of_bits (bits6 v0 ++ (bits6 v1).take 2) := rfl

theorem ref_byte_1 (v0 v1 v2 : Nat) (rest : List Nat) :
    ref_byte (v0 :: v1 :: v2 :: rest) 1 = of_bits ((bits6 v1).drop 2 ++ (bits6 v2).take 4) := rfl

theorem ref_byte_2 (v0 v1 v2 v3 : Nat) (rest : List Nat) :
    ref_byte (v0 :: v1 :: v2 :: v3 :: rest) 2 = of_bits ((bits6 v2).drop 4 ++ bits6 v3) := rfl

theorem stream_ref (n : Nat) : ∀ (vs : List Nat), vs.length ≤ n → (∀ v ∈ vs, v < 64) →
    ∀ (p k : Nat), k < (stream step_a p vs).length →
      (stream step_a p vs)[k]? = some (ref_byte vs k) := by
  induction n with
  | zero =>
    intro vs hn _ p k hk
    have : vs = [] := List.length_eq_zero.mp (by omega)
    subst this
    simp [stream] at hk
  | succ n ih =>
    intro vs hn hv p k hk
    match vs, hn, hv, hk with
    | [], _, _, hk => simp [stream] at hk
    | [v0], _, _, hk => simp [stream] at hk
    | [v0, v1], _, hv, hk =>
      have h0 : v0 < 64 := hv v0 (by simp)
      have h1 : v1 < 64 := hv v1 (by simp)
      have hs : stream step_a p [v0, v1] = [(pend step_a v0 ||| outBits step_b v1) % 256] := by
        simp [stream, next]
      rw [hs] at hk ⊢
      have hk0 : k = 0 := by simpa using hk
      subst hk0
      rw [ref_byte_0, ← byte_b v0 v1 h0 h1]; rfl
    | [v0, v1, v2], _, hv, hk =>
      have h0 : v0 < 64 := hv v0 (by simp)
      have h1 : v1 < 64 := hv v1 (by simp)
      have h2 : v2 < 64 := hv v2 (by simp)
      have hs : stream step_a p [v0, v1, v2] = [(pend step_a v0 ||| outBits step_b v1) % 256,
          (pend step_b v1 ||| outBits step_c v2) % 256] := by
        simp [stream, next]
      rw [hs] at hk ⊢
      have hk2 : k < 2 := by simpa using hk
      match k, hk2 with
      | 0, _ => rw [ref_byte_0, ← byte_b v0 v1 h0 h1]; rfl
      | 1, _ => rw [ref_byte_1, ← byte_c v1 v2 h1 h2]; rfl
    | v0 :: v1 :: v2 :: v3 :: rest, hn, hv, hk =>
      have h0 : v0 < 64 := hv v0 (by simp)
      have h1 : v1 < 64 := hv v1 (by simp)
      have h2 : v2 < 64 := hv v2 (by simp)
      have h3 : v3 < 64 := hv v3 (by simp)
      rw [stream_group] at hk ⊢
      match k, hk with
      | 0, _ => rw [ref_byte_0, ← byte_b v0 v1 h0 h1]; rfl
      | 1, _ => rw [ref_byte_1, ← byte_c v1 v2 h1 h2]; rfl
      | 2, _ =>
        rw [ref_byte_2, ← byte_d v2 v3 h2 h3]
        exact List.getElem?_cons_succ.trans (List.getElem?_cons_succ.trans List.getElem?_cons_zero)
      | j + 3, hk =>
        rw [ref_byte_shift]
        have hlen : rest.length ≤ n := by simp only [List.length_cons] at hn; omega
        have hj : j < (stream step_a 0 rest).length := by
          simp only [List.length_cons] at hk; omega
        have := ih rest hlen (fun v hvm => hv v (by simp [hvm])) 0 j hj
        rw [← this]
        exact List.getElem?_cons_succ.trans
          (List.getElem?_cons_succ.trans List.getElem?_cons_succ)

theorem syms_lt (code : List Nat) : ∀ v ∈ syms code, v < 64 := by
  intro v hv
  simp only [syms, List.mem_filterMap] at hv
  obtain ⟨ch, _, h⟩ := hv
  exact sym_lt ch v h

theorem syms_eq_alphabet_values (code : List Nat) : syms code = alphabet_values code :=
  syms_eq_filter_map code

/-! ## Where a call that fills the output region stops -/

theorem idx_phase (vs : List Nat) : ∀ l : htp_base64_decodestep,
    idx (phase l vs) = (idx l + vs.length) % 4 := by
  induction vs with
  | nil => intro l; cases l <;> rfl
  | cons v vs ih =>
    intro l
    rw [phase, ih]
    cases l <;> simp [next, idx] <;> omega

theorem idx_inj (l l' : htp_base64_decodestep) (h : idx l = idx l') : l = l' := by
  cases l <;> cases l' <;> simp [idx] at h <;> rfl

/-- When the stream does not fit, the call stops right after the input character whose
symbol completed the last byte that fits: the input read so far emits exactly `r` bytes
and ends with a symbol that emitted one. -/
theorem go_full_codechar (code : List Nat) :
    ∀ (l : htp_base64_decodestep) (m : Machine) (r : Nat),
    m.length_out = (r : Int) → 0 < r →
    r ≤ (stream l (m.out m.plainchar) (syms code)).length →
    ∃ k, k ≤ code.length ∧ (go l code m).m.codechar = m.codechar + k ∧
      (stream l (m.out m.plainchar) (syms (code.take k))).length = r ∧
      phase l (syms (code.take k)) ≠ step_b := by
  induction code with
  | nil =>
    intro l m r _ hpos hle
    simp [syms, stream] at hle
    omega
  | cons ch rest ih =>
    intro l m r hr hpos hle
    cases hs : sym ch with
    | none =>
      rw [syms_cons_none _ _ hs] at hle
      obtain ⟨k, hk, h1, h2, h3⟩ := ih l m.advance r hr hpos hle
      refine ⟨k + 1, by simp only [List.length_cons]; omega, ?_, ?_, ?_⟩
      · rw [go_skip _ _ _ _ hs, h1]; change m.codechar + 1 + k = _; omega
      · rw [List.take_succ_cons, syms_cons_none _ _ hs]; exact h2
      · rw [List.take_succ_cons, syms_cons_none _ _ hs]; exact h3
    | some f =>
      rw [syms_cons_some _ _ _ hs] at hle
      rw [go_keep _ _ _ _ _ hs]
      by_cases hl : l = step_a
      · subst hl
        rw [if_neg (by simp)]
        rw [stream_cons_a] at hle
        have hout : (feed step_a m.advance f).out m.plainchar = pend step_a f := by
          rw [feed_a_out]; exact Function.update_same _ _ _
        have hle' : r ≤ (stream step_b ((feed step_a m.advance f).out
            (feed step_a m.advance f).plainchar) (syms rest)).length := by
          change r ≤ (stream step_b ((feed step_a m.advance f).out m.plainchar)
            (syms rest)).length
          rw [hout]; exact hle
        obtain ⟨k, hk, h1, h2, h3⟩ := ih step_b (feed step_a m.advance f) r hr hpos hle'
        rw [feed_codechar] at h1
        refine ⟨k + 1, by simp only [List.length_cons]; omega, ?_, ?_, ?_⟩
        · change (go step_b rest _).m.codechar = _
          rw [h1]; change m.codechar + 1 + k = _; omega
        · rw [List.take_succ_cons, syms_cons_some _ _ _ hs, stream_cons_a]
          change (stream step_b ((feed step_a m.advance f).out m.plainchar) _).length = r at h2
          rw [hout] at h2; exact h2
        · rw [List.take_succ_cons, syms_cons_some _ _ _ hs]
          exact h3
      · have hL : (feed l m.advance f).length_out = ((r - 1 : Nat) : Int) := by
          rw [feed_length_out l m.advance f hl]
          change m.length_out - 1 = _
          rw [hr]; omega
        rw [stream_cons_emit _ _ _ _ hl] at hle
        simp only [List.length_cons] at hle
        by_cases hr1 : r = 1
        · subst hr1
          have hz : (feed l m.advance f).length_out = 0 := by rw [hL]; rfl
          rw [if_pos ⟨hl, hz⟩]
          refine ⟨1, by simp, ?_, ?_, ?_⟩
          · change (feed l m.advance f).codechar = _
            rw [feed_codechar]; rfl
          · rw [List.take_succ_cons, List.take_zero, syms_cons_some _ _ _ hs]
            simp [syms, stream, hl]
          · rw [List.take_succ_cons, List.take_zero, syms_cons_some _ _ _ hs]
            cases l
            · exact absurd rfl hl
            all_goals simp [syms, phase, next]
        · have hz : ¬ (l ≠ step_a ∧ (feed l m.advance f).length_out = 0) := by
            rw [hL]; intro h; have := h.2; omega
          rw [if_neg hz]
          have hP : (feed l m.advance f).plainchar = m.plainchar + 1 :=
            feed_plainchar l m.advance f hl
          have hst : ∀ vs, stream (next l) ((feed l m.advance f).out
              (feed l m.advance f).plainchar) vs = stream (next l) (pend l f) vs := by
            intro vs
            rw [hP]; exact stream_after_feed l m.advance f vs hl
          obtain ⟨k, hk, h1, h2, h3⟩ := ih (next l) (feed l m.advance f) (r - 1) hL
            (by omega) (by rw [hst]; omega)
          rw [feed_codechar] at h1
          rw [hst] at h2
          refine ⟨k + 1, by simp only [List.length_cons]; omega, ?_, ?_, ?_⟩
          · rw [h1]; change m.codechar + 1 + k = _; omega
          · rw [List.take_succ_cons, syms_cons_some _ _ _ hs, stream_cons_emit _ _ _ _ hl]
            simp only [List.length_cons]; omega
          · rw [List.take_succ_cons, syms_cons_some _ _ _ hs]
            exact h3

theorem decode_no_room (d : htp_base64_decoder) (code : List Nat) (out : Nat → Nat)
    (c : Int) (hc : c ≤ 0) :
    htp_base64_decode d code out c = some
      { exit := Exit.no_room, ret := 0,
        m := { decoder := d, codechar := 0, plainchar := 0, length_out := c, out := out,
               reads := [], stores := [] } } := by
  unfold htp_base64_decode
  simp only []
  rw [if_pos hc]

/-- C1 (chunk-invariance). For every decoder state (in particular the one set up by
`htp_base64_decoder_init`), every input split as `code1 ++ code2`, and output regions whose
capacity exceeds the length of the chunk fed to them: decoding `code1` and then `code2`
with the state left by the first call writes, in order, the bytes that one call over
`code1 ++ code2` writes; the counts add up, and the two ways leave the same phase and,
outside `step_a`, the same pending byte, so that the property extends to every partition. -/
theorem chunk_invariance (d : htp_base64_decoder) (code1 code2 : List Nat)
    (out1 out2 out : Nat → Nat) (c1 c2 c : Int)
    (h1 : (code1.length : Int) < c1) (h2 : (code2.length : Int) < c2)
    (h : ((code1 ++ code2).length : Int) < c) :
    ∃ o1 o2 o, htp_base64_decode d code1 out1 c1 = some o1 ∧
      htp_base64_decode o1.m.decoder code2 out2 c2 = some o2 ∧
      htp_base64_decode d (code1 ++ code2) out c = some o ∧
      o1.written ++ o2.written = o.written ∧
      o1.ret + o2.ret = o.ret ∧
      o2.m.decoder.step = o.m.decoder.step ∧
      (o.m.decoder.step ≠ step_a → o2.m.decoder.plainchar = o.m.decoder.plainchar) := by
  obtain ⟨o1, a0, a1, a2, _, a4, a5⟩ := decode_roomy d code1 out1 c1 h1
  obtain ⟨o2, b0, b1, b2, _, b4, b5⟩ := decode_roomy o1.m.decoder code2 out2 c2 h2
  obtain ⟨o, e0, e1, e2, _, e4, e5⟩ := decode_roomy d (code1 ++ code2) out c h
  have hstream : stream o1.m.decoder.step o1.m.decoder.plainchar (syms code2)
      = stream (phase d.step (syms code1)) (fpend d.step d.plainchar (syms code1))
          (syms code2) := by
    rw [a4]
    by_cases hq : phase d.step (syms code1) ≠ step_a ∨ syms code1 = []
    · rw [a5 hq]
    · have hq1 : phase d.step (syms code1) = step_a := by
        by_contra hne; exact hq (Or.inl hne)
      rw [hq1]; exact stream_a_irrel _ _ _
  have hsplit := stream_append (syms code1) (syms code2) d.step d.plainchar
  rw [syms_append] at e1 e2 e4 e5
  rw [hstream] at b1 b2
  refine ⟨o1, o2, o, a0, b0, e0, ?_, ?_, ?_, ?_⟩
  · rw [a2, b2, e2, hsplit]
  · rw [a1, b1, e1, hsplit, List.length_append]; push_cast; rfl
  · rw [b4, e4, a4, phase_append]
  · intro hne
    rw [e4] at hne
    rw [e5 (Or.inl hne), fpend_append]
    have hne2 : phase o1.m.decoder.step (syms code2) ≠ step_a := by
      rw [a4, ← phase_append]; exact hne
    rw [b5 (Or.inl hne2), a4]
    by_cases hq : phase d.step (syms code1) ≠ step_a ∨ syms code1 = []
    · rw [a5 hq]
    · have hq1 : phase d.step (syms code1) = step_a := by
        by_contra hne3; exact hq (Or.inl hne3)
      rw [hq1]
      apply fpend_a_irrel
      intro hnil
      rw [phase_append, hq1, hnil] at hne
      exact hne rfl

/-- Witness of C1: "TW" then "Fu" through one decoder state against "TWFu" at once. -/
theorem chunk_invariance_witness :
    (∃ o1 o2 o, htp_base64_decode htp_base64_decoder_init (ascii "TW") (fun _ => 0) 3 = some o1 ∧
      htp_base64_decode o1.m.decoder (ascii "Fu") (fun _ => 0) 3 = some o2 ∧
      htp_base64_decode htp_base64_decoder_init (ascii "TW" ++ ascii "Fu") (fun _ => 0) 5
        = some o ∧
      o1.written ++ o2.written = o.written ∧
      o1.ret + o2.ret = o.ret ∧
      o2.m.decoder.step = o.m.decoder.step ∧
      (o.m.decoder.step ≠ step_a → o2.m.decoder.plainchar = o.m.decoder.plainchar)) ∧
    (htp_base64_decode htp_base64_decoder_init (ascii "TW") (fun _ => 0) 3).bind
      (fun o1 => (htp_base64_decode o1.m.decoder (ascii "Fu") (fun _ => 0) 3).map
        (fun o2 => o1.written ++ o2.written)) = some [0x4D, 0x61, 0x6E] ∧
    (htp_base64_decode htp_base64_decoder_init (ascii "TWFu") (fun _ => 0) 5).map
      Outcome.written = some [0x4D, 0x61, 0x6E] :=
  ⟨chunk_invariance htp_base64_decoder_init (ascii "TW") (ascii "Fu") (fun _ => 0)
    (fun _ => 0) (fun _ => 0) 3 3 5 (by decide) (by decide) (by decide),
    by decide, by decide⟩

/-- C3 (alphabet correctness). For every 8-bit character, read as a signed `char`,
`htp_base64_decode_single` gives the standard base64 value on the alphabet
(`A`-`Z` to 0..25, `a`-`z` to 26..51, `0`-`9` to 52..61, `+` to 62, `/` to 63) and a
negative value on each of the other 192 byte values, among them `=`, the characters
between `+` and `z` that are not in the alphabet, the bytes below 43 and those from
128 on. -/
theorem alphabet_correctness :
    (∀ c : Fin 256,
      (65 ≤ c.val ∧ c.val ≤ 90 → htp_base64_decode_single (wrap8 c.val) = (c.val : Int) - 65) ∧
      (97 ≤ c.val ∧ c.val ≤ 122 →
        htp_base64_decode_single (wrap8 c.val) = (c.val : Int) - 97 + 26) ∧
      (48 ≤ c.val ∧ c.val ≤ 57 →
        htp_base64_decode_single (wrap8 c.val) = (c.val : Int) - 48 + 52) ∧
      (c.val = 43 → htp_base64_decode_single (wrap8 c.val) = 62) ∧
      (c.val = 47 → htp_base64_decode_single (wrap8 c.val) = 63) ∧
      (¬ ((65 ≤ c.val ∧ c.val ≤ 90) ∨ (97 ≤ c.val ∧ c.val ≤ 122) ∨
          (48 ≤ c.val ∧ c.val ≤ 57) ∨ c.val = 43 ∨ c.val = 47) →
        htp_base64_decode_single (wrap8 c.val) < 0)) ∧
    ((List.range 256).filter
      (fun c : Nat => decide (htp_base64_decode_single (wrap8 c) < 0))).length = 192 ∧
    htp_base64_decode_single (wrap8 61) < 0 ∧
    (∀ c : Fin 256, (c.val < 43 ∨ 128 ≤ c.val ∨
        (43 < c.val ∧ c.val < 47) ∨ (57 < c.val ∧ c.val < 65) ∨ (90 < c.val ∧ c.val < 97)) →
      htp_base64_decode_single (wrap8 c.val) < 0) := by
  set_option maxRecDepth 100000 in
  refine ⟨by decide, by decide, by decide, by decide⟩

/-- C4 (skip tolerance). For every decoder state, input and capacity larger than the
length of the input, the call returns the same count and writes the same bytes as the
call, from the same state and with the same capacity, on the input from which every
character with a negative `htp_base64_decode_single` has been deleted; both calls end at
the end of their input, so a skipped character, `=` included, never ends decoding. -/
theorem skip_tolerance (d : htp_base64_decoder) (code : List Nat) (out : Nat → Nat)
    (c : Int) (hc : (code.length : Int) < c) :
    ∃ o o', htp_base64_decode d code out c = some o ∧
      htp_base64_decode d
        (code.filter (fun ch : Nat => decide (0 ≤ htp_base64_decode_single (wrap8 ch))))
        out c = some o' ∧
      o.ret = o'.ret ∧ o.written = o'.written ∧
      o.exit = Exit.input_end ∧ o'.exit = Exit.input_end ∧
      o.m.decoder.step = o'.m.decoder.step := by
  have hlen : ((code.filter kept).length : Int) < c := by
    have := List.length_filter_le kept code
    omega
  obtain ⟨o, a0, a1, a2, a3, a4, _⟩ := decode_roomy d code out c hc
  obtain ⟨o', b0, b1, b2, b3, b4, _⟩ := decode_roomy d (code.filter kept) out c hlen
  rw [syms_filter] at b1 b2 b4
  exact ⟨o, o', a0, b0, by rw [a1, b1], by rw [a2, b2], a3, b3, by rw [a4, b4]⟩

/-- Witness of C4: "TWE=" decodes to the bytes of "TWE". -/
theorem skip_tolerance_witness :
    (∃ o o', htp_base64_decode htp_base64_decoder_init (ascii "TWE=") (fun _ => 0) 5 = some o ∧
      htp_base64_decode htp_base64_decoder_init
        ((ascii "TWE=").filter
          (fun ch : Nat => decide (0 ≤ htp_base64_decode_single (wrap8 ch))))
        (fun _ => 0) 5 = some o' ∧
      o.ret = o'.ret ∧ o.written = o'.written ∧
      o.exit = Exit.input_end ∧ o'.exit = Exit.input_end ∧
      o.m.decoder.step = o'.m.decoder.step) ∧
    (ascii "TWE=").filter
        (fun ch : Nat => decide (0 ≤ htp_base64_decode_single (wrap8 ch))) = ascii "TWE" ∧
    (htp_base64_decode htp_base64_decoder_init (ascii "TWE=") (fun _ => 0) 5).map
      Outcome.written = some [0x4D, 0x61] ∧
    (htp_base64_decode htp_base64_decoder_init (ascii "TWE") (fun _ => 0) 5).map
      Outcome.written = some [0x4D, 0x61] :=
  ⟨skip_tolerance htp_base64_decoder_init (ascii "TWE=") (fun _ => 0) 5 (by decide),
    by decide, by decide, by decide⟩

/-- C6 (capacity backpressure, truncation). For every decoder state and input, let the
call with unconstrained capacity (`big`, larger than the input is long) write `L` bytes.
For every capacity `c` with `1 ≤ c ≤ L` the call with capacity `c` returns exactly `c`,
through the capacity check, and the `c` bytes it reports are the first `c` bytes of the
unconstrained decode, whatever the two output regions held before. -/
theorem truncation (d : htp_base64_decoder) (code : List Nat) (out out' : Nat → Nat)
    (big c : Int) (hbig : (code.length : Int) < big) (h1 : 1 ≤ c) :
    ∃ o_big, htp_base64_decode d code out big = some o_big ∧
      (c ≤ o_big.ret →
        ∃ o, htp_base64_decode d code out' c = some o ∧ o.ret = c ∧
          o.exit = Exit.out_full ∧ o.written = o_big.written.take c.toNat) := by
  obtain ⟨ob, a0, a1, a2, _⟩ := decode_roomy d code out big hbig
  refine ⟨ob, a0, fun hle => ?_⟩
  obtain ⟨o, b0, b1, b2, _, b4⟩ := decode_spec d code out' c (by omega)
  rw [a1] at hle
  refine ⟨o, b0, ?_, (b4 hle).1, ?_⟩
  · rw [b1]; omega
  · rw [b2, a2]

/-- Witness of C6: "TWFu" decodes to three bytes; with capacity 2 the call returns 2. -/
theorem truncation_witness :
    (∃ o_big, htp_base64_decode htp_base64_decoder_init (ascii "TWFu") (fun _ => 0) 5
        = some o_big ∧
      ((2 : Int) ≤ o_big.ret →
        ∃ o, htp_base64_decode htp_base64_decoder_init (ascii "TWFu") (fun _ => 0) 2 = some o ∧
          o.ret = 2 ∧ o.exit = Exit.out_full ∧ o.written = o_big.written.take (2 : Int).toNat)) ∧
    (htp_base64_decode htp_base64_decoder_init (ascii "TWFu") (fun _ => 0) 5).map
      Outcome.ret = some 3 ∧
    (htp_base64_decode htp_base64_decoder_init (ascii "TWFu") (fun _ => 0) 2).map
      Outcome.written = some [0x4D, 0x61] :=
  ⟨truncation htp_base64_decoder_init (ascii "TWFu") (fun _ => 0) (fun _ => 0) 5 2
    (by decide) (by decide), by decide, by decide⟩

/-- C9 (return-value bound). For every decoder state, input, output region and
capacity `length_out` the call returns a count with `0 ≤ count ≤ max(length_out, 0)`, and
the count is at most the number of base64 alphabet characters in the input. -/
theorem return_bound (d : htp_base64_decoder) (code : List Nat) (out : Nat → Nat)
    (length_out : Int) :
    ∃ o, htp_base64_decode d code out length_out = some o ∧
      0 ≤ o.ret ∧ o.ret ≤ max length_out 0 ∧
      o.ret ≤ ((code.filter
        (fun ch : Nat => decide (0 ≤ htp_base64_decode_single (wrap8 ch)))).length : Int) := by
  by_cases hc : length_out ≤ 0
  · refine ⟨_, by unfold htp_base64_decode; simp only []; rw [if_pos hc], ?_, ?_, ?_⟩
    · exact Int.le_refl _
    · exact le_max_right _ _
    · exact Int.ofNat_nonneg _
  · obtain ⟨o, a0, a1, _⟩ := decode_spec d code out length_out (by omega)
    have hs := stream_length_le d.step d.plainchar (syms code)
    have hk : (syms code).length = (code.filter kept).length := syms_length code
    have hk' : (code.filter
        (fun ch : Nat => decide (0 ≤ htp_base64_decode_single (wrap8 ch)))).length
        = (code.filter kept).length := rfl
    refine ⟨o, a0, ?_, ?_, ?_⟩
    · rw [a1]; exact Int.ofNat_nonneg _
    · rw [a1, max_eq_left (by omega)]; omega
    · rw [a1, hk']; omega

/-- C10 (termination and input bounds). For every decoder state, input, output region
and capacity the call returns (the loops end within `length_in + 1` evaluations of a loop
body and never read outside the input); the input indices it reads are `0, 1, ..,
codechar - 1` in this order with `codechar ≤ length_in`: at most `length_in` reads, each
at an index below `length_in`, none twice. -/
theorem termination_reads (d : htp_base64_decoder) (code : List Nat) (out : Nat → Nat)
    (length_out : Int) :
    ∃ o, htp_base64_decode d code out length_out = some o ∧
      o.m.reads = List.range o.m.codechar ∧ o.m.codechar ≤ code.length ∧
      o.m.reads.length ≤ code.length ∧ (∀ i ∈ o.m.reads, i < code.length) ∧
      o.m.reads.Nodup := by
  have key : ∃ o, htp_base64_decode d code out length_out = some o ∧
      o.m.reads = List.range o.m.codechar ∧ o.m.codechar ≤ code.length := by
    by_cases hc : length_out ≤ 0
    · exact ⟨_, by unfold htp_base64_decode; simp only []; rw [if_pos hc], rfl,
        Nat.zero_le _⟩
    · obtain ⟨k, hk, h1, h2⟩ := go_reads code d.step (entry d out length_out)
      refine ⟨_, decode_eq_go d code out length_out (by omega), ?_, ?_⟩
      · rw [h2, h1]
        change [] ++ List.range' 0 k = List.range (0 + k)
        rw [List.nil_append, Nat.zero_add, List.range_eq_range']
      · rw [h1]; change 0 + k ≤ _; omega
  obtain ⟨o, h0, h1, h2⟩ := key
  refine ⟨o, h0, h1, h2, ?_, ?_, ?_⟩
  · rw [h1, List.length_range]; exact h2
  · intro i hi
    rw [h1, List.mem_range] at hi
    omega
  · rw [h1]; exact List.nodup_range _

/-- C8 (input length is a safe scratch size). For every input of length `n`, the call
from a freshly initialised state with capacity `n` returns a count that is at most
`floor(3n/4)` and at most `n`, never returns through the capacity check (for `n ≥ 1` it
returns at the end of the input), and makes every store, of a decoded byte or of the
byte under assembly, at an index strictly below `n`. -/
theorem scratch_size_safe (code : List Nat) (out : Nat → Nat) :
    ∃ o, htp_base64_decode htp_base64_decoder_init code out code.length = some o ∧
      o.ret ≤ ((3 * code.length / 4 : Nat) : Int) ∧ o.ret ≤ (code.length : Int) ∧
      o.exit ≠ Exit.out_full ∧ (1 ≤ code.length → o.exit = Exit.input_end) ∧
      ∀ i ∈ o.m.stores, i < code.length := by
  obtain ⟨o, a0, a1, _, a3, a4, a5⟩ := decode_scratch code out
  have hk := syms_length_le code
  refine ⟨o, a0, ?_, ?_, a3, a4, a5⟩
  · rw [a1]; omega
  · rw [a1]; omega

/-- C2 (reference decoding). For every input, with `v_0 .. v_(n-1)` the values that
`htp_base64_decode_single` gives for its alphabet characters, in order, the call from a
freshly initialised state with capacity larger than the input length returns
`floor(3n/4)`, reports that many bytes, and byte `k` is bits `8k .. 8k+7`, most
significant first, of the concatenation of the `v_i` as 6-bit big-endian values; the
incomplete trailing bits are not emitted. -/
theorem reference_decoding (code : List Nat) (out : Nat → Nat) (c : Int)
    (hc : (code.length : Int) < c) :
    ∃ o, htp_base64_decode htp_base64_decoder_init code out c = some o ∧
      o.ret = ((3 * (alphabet_values code).length / 4 : Nat) : Int) ∧
      o.written.length = 3 * (alphabet_values code).length / 4 ∧
      ∀ k, k < 3 * (alphabet_values code).length / 4 →
        o.written[k]? = some (of_bits (((bit_string (alphabet_values code)).drop (8 * k)).take 8))
      := by
  obtain ⟨o, a0, a1, a2, _⟩ := decode_roomy htp_base64_decoder_init code out c hc
  have a2' : o.written = stream step_a 0 (syms code) := a2
  have hlen : (stream step_a 0 (syms code)).length = 3 * (syms code).length / 4 := by
    rw [stream_length]; simp [idx]
  rw [← syms_eq_alphabet_values]
  refine ⟨o, a0, ?_, ?_, ?_⟩
  · rw [a1, ← hlen]; rfl
  · rw [a2', hlen]
  · intro k hk
    rw [a2']
    exact stream_ref (syms code).length (syms code) (Nat.le_refl _) (syms_lt code) 0 k
      (by rw [hlen]; exact hk)

/-- Witness of C2: "TWFu" gives `[0x4D, 0x61, 0x6E]` and "TWE=" gives `[0x4D, 0x61]`. -/
theorem reference_decoding_witness :
    (∃ o, htp_base64_decode htp_base64_decoder_init (ascii "TWFu") (fun _ => 0) 5 = some o ∧
      o.ret = ((3 * (alphabet_values (ascii "TWFu")).length / 4 : Nat) : Int) ∧
      o.written.length = 3 * (alphabet_values (ascii "TWFu")).length / 4 ∧
      ∀ k, k < 3 * (alphabet_values (ascii "TWFu")).length / 4 →
        o.written[k]? = some
          (of_bits (((bit_string (alphabet_values (ascii "TWFu"))).drop (8 * k)).take 8))) ∧
    (htp_base64_decode htp_base64_decoder_init (ascii "TWFu") (fun _ => 0) 5).map
      Outcome.written = some [0x4D, 0x61, 0x6E] ∧
    (htp_base64_decode htp_base64_decoder_init (ascii "TWE=") (fun _ => 0) 5).map
      Outcome.written = some [0x4D, 0x61] ∧
    alphabet_values (ascii "TWFu") = [19, 22, 5, 46] :=
  ⟨reference_decoding (ascii "TWFu") (fun _ => 0) 5 (by decide), by decide, by decide,
    by decide⟩

/-- Counterexample to C5 as stated: on "TWFu" (full decode `[0x4D, 0x61, 0x6E]`) with
capacity 1 the first call reads "TW", returns `[0x4D]` and leaves the state as initialised;
the second call, on the same state with the remaining "Fu" and capacity 3, writes the one
byte `0x16`, not the remaining two bytes `[0x61, 0x6E]`. -/
theorem resumption_counterexample :
    (htp_base64_decode htp_base64_decoder_init (ascii "TWFu") (fun _ => 0) 5).map
      Outcome.written = some [0x4D, 0x61, 0x6E] ∧
    (htp_base64_decode htp_base64_decoder_init (ascii "TWFu") (fun _ => 0) 1).map
      (fun o1 => (o1.written, o1.m.codechar, o1.m.decoder, o1.exit))
      = some ([0x4D], 2, htp_base64_decoder_init, Exit.out_full) ∧
    (htp_base64_decode htp_base64_decoder_init (ascii "TWFu") (fun _ => 0) 1).bind
      (fun o1 => (htp_base64_decode o1.m.decoder ((ascii "TWFu").drop o1.m.codechar)
        (fun _ => 0) 3).map (fun o2 => (o2.ret, o1.written ++ o2.written)))
      = some (1, [0x4D, 0x16]) := by
  decide

/-- C5 (capacity backpressure, resumption), amended. For every input whose full decoded
length `L` (from a freshly initialised state, capacity `big` larger than the input)
exceeds the capacity `c ≥ 1` of a first call: the first call returns `c` through the
capacity check, its bytes are the first `c` bytes of the full decode, and it leaves the
decoder state as it was on entry, without a record of where decoding stopped. When `c` is
a multiple of 3, so that the first call stops at the end of a group, a second call on that
state with the input the first call did not read and capacity larger than `L - c` writes
exactly the remaining `L - c` bytes, and the bytes of the two calls concatenated are the
full decode. -/
theorem resumption_at_group_end (code : List Nat) (out out1 out2 : Nat → Nat)
    (big c c2 : Int) (hbig : (code.length : Int) < big) (hc : 1 ≤ c) :
    ∃ o, htp_base64_decode htp_base64_decoder_init code out big = some o ∧
      (c < o.ret →
        ∃ o1, htp_base64_decode htp_base64_decoder_init code out1 c = some o1 ∧
          o1.ret = c ∧ o1.exit = Exit.out_full ∧ o1.written = o.written.take c.toNat ∧
          o1.m.decoder = htp_base64_decoder_init ∧ o1.m.codechar ≤ code.length ∧
          (c % 3 = 0 → o.ret - c < c2 →
            ∃ o2, htp_base64_decode o1.m.decoder (code.drop o1.m.codechar) out2 c2 = some o2 ∧
              o2.ret = o.ret - c ∧ o1.written ++ o2.written = o.written)) := by
  obtain ⟨o, a0, a1, a2, _⟩ := decode_roomy htp_base64_decoder_init code out big hbig
  have a1' : o.ret = ((stream step_a 0 (syms code)).length : Int) := a1
  have a2' : o.written = stream step_a 0 (syms code) := a2
  refine ⟨o, a0, fun hlt => ?_⟩
  have hpos : 0 < c := by omega
  obtain ⟨o1, b0, b1, b2, _, b4⟩ := decode_spec htp_base64_decoder_init code out1 c hpos
  have b1' : o1.ret = ((min (stream step_a 0 (syms code)).length c.toNat : Nat) : Int) := b1
  have b2' : o1.written = (stream step_a 0 (syms code)).take c.toNat := b2
  have hle : c ≤ ((stream step_a 0 (syms code)).length : Int) := by omega
  obtain ⟨e1, e2⟩ := b4 hle
  have hgo := decode_eq_go htp_base64_decoder_init code out1 c hpos
  have ho1 : o1 = go step_a code (entry htp_base64_decoder_init out1 c) := by
    rw [b0] at hgo; exact Option.some.inj hgo
  have hout : (entry htp_base64_decoder_init out1 c).out
      (entry htp_base64_decoder_init out1 c).plainchar = 0 := by
    change Function.update out1 0 0 0 = 0
    exact Function.update_same _ _ _
  obtain ⟨k, hk, k1, k2, k3⟩ := go_full_codechar code step_a
    (entry htp_base64_decoder_init out1 c) c.toNat (by change c = _; omega) (by omega)
    (by rw [hout]; omega)
  rw [hout] at k2
  rw [← ho1] at k1
  have hcode : o1.m.codechar = k := by rw [k1]; change 0 + k = k; omega
  refine ⟨o1, b0, by rw [b1']; omega, e1, by rw [b2', a2'], e2, by omega, ?_⟩
  intro h3 hc2
  rw [e2, hcode]
  -- the symbols read by the first call make up whole groups
  have hlen1 : (stream step_a 0 (syms (code.take k))).length
      = 3 * (syms (code.take k)).length / 4 := by
    rw [stream_length]; simp [idx]
  have hidx := idx_phase (syms (code.take k)) step_a
  have hmod : (syms (code.take k)).length % 4 ≠ 1 := by
    intro h1
    apply k3
    apply idx_inj
    rw [hidx]; simp [idx, h1]
  have hphase : phase step_a (syms (code.take k)) = step_a := by
    apply idx_inj
    rw [hidx]
    simp only [idx, Nat.zero_add]
    omega
  have hsplit : syms code = syms (code.take k) ++ syms (code.drop k) := by
    rw [← syms_append, List.take_append_drop]
  have hstream : stream step_a 0 (syms code)
      = stream step_a 0 (syms (code.take k)) ++ stream step_a 0 (syms (code.drop k)) := by
    conv_lhs => rw [hsplit, stream_append, hphase]
    rw [stream_a_irrel (fpend step_a 0 (syms (code.take k))) 0]
  have htotal : (stream step_a 0 (syms code)).length
      = c.toNat + (stream step_a 0 (syms (code.drop k))).length := by
    rw [hstream, List.length_append, k2]
  have hc2pos : 0 < c2 := by omega
  obtain ⟨o2, d0, d1, d2, _⟩ :=
    decode_spec htp_base64_decoder_init (code.drop k) out2 c2 hc2pos
  have d1' : o2.ret = ((min (stream step_a 0 (syms (code.drop k))).length c2.toNat : Nat)
      : Int) := d1
  have d2' : o2.written = (stream step_a 0 (syms (code.drop k))).take c2.toNat := d2
  refine ⟨o2, d0, ?_, ?_⟩
  · rw [d1', a1']; omega
  · rw [b2', d2', a2']
    rw [List.take_of_length_le (l := stream step_a 0 (syms (code.drop k))) (by omega)]
    conv_rhs => rw [hstream]
    congr 1
    rw [hstream, List.take_left' k2]

/-- Witness of the amended C5: "TWFuTWE=" decodes to five bytes; with capacity 3 the
first call stops after "TWFu" and the second call, on "TWE=", gives the other two. -/
theorem resumption_at_group_end_witness :
    (∃ o, htp_base64_decode htp_base64_decoder_init (ascii "TWFuTWE=") (fun _ => 0) 9 = some o ∧
      ((3 : Int) < o.ret →
        ∃ o1, htp_base64_decode htp_base64_decoder_init (ascii "TWFuTWE=") (fun _ => 0) 3
            = some o1 ∧
          o1.ret = 3 ∧ o1.exit = Exit.out_full ∧ o1.written = o.written.take (3 : Int).toNat ∧
          o1.m.decoder = htp_base64_decoder_init ∧ o1.m.codechar ≤ (ascii "TWFuTWE=").length ∧
          ((3 : Int) % 3 = 0 → o.ret - 3 < 3 →
            ∃ o2, htp_base64_decode o1.m.decoder ((ascii "TWFuTWE=").drop o1.m.codechar)
                (fun _ => 0) 3 = some o2 ∧
              o2.ret = o.ret - 3 ∧ o1.written ++ o2.written = o.written))) ∧
    (htp_base64_decode htp_base64_decoder_init (ascii "TWFuTWE=") (fun _ => 0) 9).map
      Outcome.written = some [0x4D, 0x61, 0x6E, 0x4D, 0x61] ∧
    (htp_base64_decode htp_base64_decoder_init (ascii "TWFuTWE=") (fun _ => 0) 3).bind
      (fun o1 => (htp_base64_decode o1.m.decoder ((ascii "TWFuTWE=").drop o1.m.codechar)
        (fun _ => 0) 3).map (fun o2 => (o1.written, o2.written)))
      = some ([0x4D, 0x61, 0x6E], [0x4D, 0x61]) :=
  ⟨resumption_at_group_end (ascii "TWFuTWE=") (fun _ => 0) (fun _ => 0) (fun _ => 0) 9 3 3
    (by decide) (by decide), by decide, by decide⟩

/-! ## One symbol, and counting the emitting symbols -/

theorem sym_of_value (ch v : Nat) (hv : htp_base64_decode_single (wrap8 ch) = (v : Int)) :
    sym ch = some v := by
  rw [sym_eq, if_neg (by omega), hv]
  rfl

theorem value_lt (ch v : Nat) (hv : htp_base64_decode_single (wrap8 ch) = (v : Int)) :
    v < 64 := sym_lt ch v (sym_of_value ch v hv)

set_option maxRecDepth 100000 in
theorem mask_facts : ∀ v : Fin 64,
    ((v.val &&& 0x03f) <<< 2) % 256 = (v.val <<< 2) % 256 ∧
    (v.val &&& 0x030) >>> 4 = v.val >>> 4 ∧
    (v.val &&& 0x03c) >>> 2 = v.val >>> 2 ∧
    v.val &&& 0x03f = v.val := by
  decide

/-- The call on a single kept character, with room for two bytes. -/
theorem decode_one (l : htp_base64_decodestep) (p ch v : Nat) (out : Nat → Nat) (c : Int)
    (hc : 2 ≤ c) (hv : htp_base64_decode_single (wrap8 ch) = (v : Int)) :
    ∃ o, htp_base64_decode { step := l, plainchar := p } [ch] out c = some o ∧
      o.ret = ((stream l p [v]).length : Int) ∧ o.written = stream l p [v] ∧
      o.m.decoder.step = next l ∧ (next l ≠ step_a → o.m.decoder.plainchar = pend l v) := by
  have hsyms : syms [ch] = [v] := by
    rw [syms_cons_some ch v [] (sym_of_value ch v hv)]; rfl
  have hlen := stream_length_le l p [v]
  simp only [List.length_singleton] at hlen
  obtain ⟨o, a0, a1, a2, a3, _⟩ :=
    decode_spec { step := l, plainchar := p } [ch] out c (by omega)
  rw [hsyms] at a1 a2 a3
  obtain ⟨_, e2, e3⟩ := a3 (by change ((stream l p [v]).length : Int) < c; omega)
  refine ⟨o, a0, ?_, ?_, e2, fun hne => e3 (Or.inl hne)⟩
  · rw [a1]; change ((min (stream l p [v]).length c.toNat : Nat) : Int) = _
    congr 1; omega
  · rw [a2]; change (stream l p [v]).take c.toNat = _
    exact List.take_of_length_le (by omega)

theorem filter_count_succ (q n : Nat) :
    ((List.range' 1 (n + 1)).filter (fun i => decide ((q + i) % 4 ≠ 1))).length
      = ((List.range' 1 n).filter (fun i => decide ((q + i) % 4 ≠ 1))).length
        + (if (q + (n + 1)) % 4 ≠ 1 then 1 else 0) := by
  rw [List.range'_1_concat, List.filter_append, List.length_append]
  congr 1
  by_cases h : (q + (n + 1)) % 4 ≠ 1
  · have h' : (q + (1 + n)) % 4 ≠ 1 := by rw [Nat.add_comm 1 n]; exact h
    rw [if_pos h, List.filter_cons_of_pos (by simpa using h')]; rfl
  · have h' : ¬ (q + (1 + n)) % 4 ≠ 1 := by rw [Nat.add_comm 1 n]; exact h
    rw [if_neg h, List.filter_cons_of_neg (by simpa using h')]; rfl

theorem filter_count (q : Nat) (hq : q < 4) (n : Nat) :
    ((List.range' 1 n).filter (fun i => decide ((q + i) % 4 ≠ 1))).length
      = (3 * (n + q)) / 4 - (3 * q) / 4 := by
  induction n with
  | zero => simp
  | succ n ih =>
    rw [filter_count_succ, ih]
    have hk : n + q = 4 * ((n + q) / 4) + (n + q) % 4 := (Nat.div_add_mod _ _).symm
    have hr : (n + q) % 4 < 4 := Nat.mod_lt _ (by norm_num)
    generalize (n + q) / 4 = k at hk
    generalize (n + q) % 4 = r at hk hr
    have h1 : n + 1 + q = 4 * k + r + 1 := by omega
    have h2 : q + (n + 1) = 4 * k + r + 1 := by omega
    rw [h1, h2]
    have h3 : n + q = 4 * k + r := hk
    rw [h3]
    interval_cases r <;> interval_cases q <;> (split <;> omega)

theorem idx_lt (l : htp_base64_decodestep) : idx l < 4 := by
  cases l <;> simp [idx]

/-- C11 (per-symbol transition table). For every pending byte `p`, every character `ch`
of the alphabet with value `v`, and capacity at least 2, the call on the single character
gives: in `step_a`, count 0 and state `(step_b, v << 2)`; in `step_b`, count 1, byte
`p | (v >> 4)` and state `(step_c, (v & 0x0F) << 4)`; in `step_c`, count 1, byte
`p | (v >> 2)` and state `(step_d, (v & 0x03) << 6)`; in `step_d`, count 1, byte `p | v`
and phase `step_a`; byte values are taken modulo 256. -/
theorem transition_table (p ch v : Nat) (out : Nat → Nat) (c : Int) (hc : 2 ≤ c)
    (hv : htp_base64_decode_single (wrap8 ch) = (v : Int)) :
    (∃ o, htp_base64_decode { step := step_a, plainchar := p } [ch] out c = some o ∧
      o.ret = 0 ∧ o.written = [] ∧
      o.m.decoder = { step := step_b, plainchar := (v <<< 2) % 256 }) ∧
    (∃ o, htp_base64_decode { step := step_b, plainchar := p } [ch] out c = some o ∧
      o.ret = 1 ∧ o.written = [(p ||| (v >>> 4)) % 256] ∧
      o.m.decoder = { step := step_c, plainchar := ((v &&& 0x0F) <<< 4) % 256 }) ∧
    (∃ o, htp_base64_decode { step := step_c, plainchar := p } [ch] out c = some o ∧
      o.ret = 1 ∧ o.written = [(p ||| (v >>> 2)) % 256] ∧
      o.m.decoder = { step := step_d, plainchar := ((v &&& 0x03) <<< 6) % 256 }) ∧
    (∃ o, htp_base64_decode { step := step_d, plainchar := p } [ch] out c = some o ∧
      o.ret = 1 ∧ o.written = [(p ||| v) % 256] ∧ o.m.decoder.step = step_a) := by
  obtain ⟨m1, m2, m3, m4⟩ := mask_facts ⟨v, value_lt ch v hv⟩
  change ((v &&& 0x03f) <<< 2) % 256 = (v <<< 2) % 256 at m1
  change (v &&& 0x030) >>> 4 = v >>> 4 at m2
  change (v &&& 0x03c) >>> 2 = v >>> 2 at m3
  change v &&& 0x03f = v at m4
  refine ⟨?_, ?_, ?_, ?_⟩
  · obtain ⟨o, a0, a1, a2, a3, a4⟩ := decode_one step_a p ch v out c hc hv
    have hs : stream step_a p [v] = [] := by simp [stream]
    rw [hs] at a1 a2
    refine ⟨o, a0, a1, a2, ?_⟩
    have h4 : o.m.decoder.plainchar = (v <<< 2) % 256 := by
      rw [a4 (by simp [next]), ← m1]; rfl
    have h3 : o.m.decoder.step = step_b := a3
    cases hd : o.m.decoder with
    | mk st pl => rw [hd] at h3 h4; simp only at h3 h4; rw [h3, h4]
  · obtain ⟨o, a0, a1, a2, a3, a4⟩ := decode_one step_b p ch v out c hc hv
    have hs : stream step_b p [v] = [(p ||| (v >>> 4)) % 256] := by
      simp [stream, outBits, m2]
    rw [hs] at a1 a2
    refine ⟨o, a0, a1, a2, ?_⟩
    have h4 : o.m.decoder.plainchar = ((v &&& 0x0F) <<< 4) % 256 := by
      rw [a4 (by simp [next])]; rfl
    have h3 : o.m.decoder.step = step_c := a3
    cases hd : o.m.decoder with
    | mk st pl => rw [hd] at h3 h4; simp only at h3 h4; rw [h3, h4]
  · obtain ⟨o, a0, a1, a2, a3, a4⟩ := decode_one step_c p ch v out c hc hv
    have hs : stream step_c p [v] = [(p ||| (v >>> 2)) % 256] := by
      simp [stream, outBits, m3]
    rw [hs] at a1 a2
    refine ⟨o, a0, a1, a2, ?_⟩
    have h4 : o.m.decoder.plainchar = ((v &&& 0x03) <<< 6) % 256 := by
      rw [a4 (by simp [next])]; rfl
    have h3 : o.m.decoder.step = step_d := a3
    cases hd : o.m.decoder with
    | mk st pl => rw [hd] at h3 h4; simp only at h3 h4; rw [h3, h4]
  · obtain ⟨o, a0, a1, a2, a3, _⟩ := decode_one step_d p ch v out c hc hv
    have hs : stream step_d p [v] = [(p ||| v) % 256] := by
      simp [stream, outBits, m4]
    rw [hs] at a1 a2
    exact ⟨o, a0, a1, a2, a3⟩

/-- Witness of C11: the character `W` (value 22) fed in each phase with pending byte
`0x4C` and capacity 2. -/
theorem transition_table_witness :
    ((∃ o, htp_base64_decode { step := step_a, plainchar := 0x4C } [87] (fun _ => 0) 2
        = some o ∧ o.ret = 0 ∧ o.written = [] ∧
      o.m.decoder = { step := step_b, plainchar := (22 <<< 2) % 256 }) ∧
    (∃ o, htp_base64_decode { step := step_b, plainchar := 0x4C } [87] (fun _ => 0) 2
        = some o ∧ o.ret = 1 ∧ o.written = [(0x4C ||| (22 >>> 4)) % 256] ∧
      o.m.decoder = { step := step_c, plainchar := ((22 &&& 0x0F) <<< 4) % 256 }) ∧
    (∃ o, htp_base64_decode { step := step_c, plainchar := 0x4C } [87] (fun _ => 0) 2
        = some o ∧ o.ret = 1 ∧ o.written = [(0x4C ||| (22 >>> 2)) % 256] ∧
      o.m.decoder = { step := step_d, plainchar := ((22 &&& 0x03) <<< 6) % 256 }) ∧
    (∃ o, htp_base64_decode { step := step_d, plainchar := 0x4C } [87] (fun _ => 0) 2
        = some o ∧ o.ret = 1 ∧ o.written = [(0x4C ||| 22) % 256] ∧
      o.m.decoder.step = step_a)) ∧
    (htp_base64_decode { step := step_b, plainchar := 0x4C } [87] (fun _ => 0) 2).map
      (fun o => (o.ret, o.written, o.m.decoder)) =
      some (1, [0x4D], { step := step_c, plainchar := 0x60 }) :=
  ⟨transition_table 0x4C 87 22 (fun _ => 0) 2 (by decide) (by decide), by decide⟩

/-- C12 (phase tracking). For every decoder state with phase index `q` (`step_a` is 0,
`step_d` is 3), every input with `n` alphabet characters and every capacity larger than
the input length, the phase stored by the call has index `(q + n) mod 4` and the count
returned is the number of `i` in `1..n` with `(q + i) mod 4 ≠ 1`. -/
theorem phase_tracking (d : htp_base64_decoder) (code : List Nat) (out : Nat → Nat)
    (c : Int) (hc : (code.length : Int) < c) :
    ∃ o, htp_base64_decode d code out c = some o ∧
      idx o.m.decoder.step = (idx d.step + (code.filter
        (fun ch : Nat => decide (0 ≤ htp_base64_decode_single (wrap8 ch)))).length) % 4 ∧
      o.ret = (((List.range' 1 (code.filter
        (fun ch : Nat => decide (0 ≤ htp_base64_decode_single (wrap8 ch)))).length).filter
          (fun i => decide ((idx d.step + i) % 4 ≠ 1))).length : Int) := by
  obtain ⟨o, a0, a1, _, _, a4, _⟩ := decode_roomy d code out c hc
  have hk : (code.filter
      (fun ch : Nat => decide (0 ≤ htp_base64_decode_single (wrap8 ch)))).length
      = (syms code).length := (syms_length code).symm
  rw [hk]
  refine ⟨o, a0, ?_, ?_⟩
  · rw [a4, idx_phase]
  · rw [a1, filter_count _ (idx_lt d.step), stream_length]

/-- Witness of C12: "TWE=" from `step_c`: three alphabet characters, phase index
`(2 + 3) mod 4 = 1` and two bytes (for `i = 1` and `i = 2`). -/
theorem phase_tracking_witness :
    (∃ o, htp_base64_decode { step := step_c, plainchar := 0 } (ascii "TWE=") (fun _ => 0) 5
        = some o ∧
      idx o.m.decoder.step = (idx step_c + ((ascii "TWE=").filter
        (fun ch : Nat => decide (0 ≤ htp_base64_decode_single (wrap8 ch)))).length) % 4 ∧
      o.ret = (((List.range' 1 ((ascii "TWE=").filter
        (fun ch : Nat => decide (0 ≤ htp_base64_decode_single (wrap8 ch)))).length).filter
          (fun i => decide ((idx step_c + i) % 4 ≠ 1))).length : Int)) ∧
    (htp_base64_decode { step := step_c, plainchar := 0 } (ascii "TWE=") (fun _ => 0) 5).map
      (fun o => (o.ret, o.m.decoder.step)) = some (2, step_b) :=
  ⟨phase_tracking { step := step_c, plainchar := 0 } (ascii "TWE=") (fun _ => 0) 5
    (by decide), by decide⟩

/-! ## Frame facts -/

theorem syms_eq_nil (code : List Nat)
    (h : ∀ ch ∈ code, htp_base64_decode_single (wrap8 ch) < 0) : syms code = [] := by
  induction code with
  | nil => rfl
  | cons ch rest ih =>
    have hs : sym ch = none := by
      rw [sym_eq, if_pos (h ch (List.mem_cons_self _ _))]
    rw [syms_cons_none _ _ hs]
    exact ih (fun x hx => h x (List.mem_cons_of_mem _ hx))

theorem decoding_size_eq : decoding_size = 80 := by decide

/-- Every store of a call is at an index that is at most the capacity. -/
theorem stores_le_capacity (d : htp_base64_decoder) (code : List Nat) (out : Nat → Nat)
    (c : Int) (hc : 1 ≤ c) :
    ∃ o, htp_base64_decode d code out c = some o ∧ ∀ i ∈ o.m.stores, (i : Int) ≤ c := by
  have hgo := decode_eq_go d code out c (by omega)
  obtain ⟨o, a0, a1, _⟩ := decode_spec d code out c (by omega)
  have ho : o = go d.step code (entry d out c) := by
    rw [a0] at hgo; exact Option.some.inj hgo
  refine ⟨o, a0, fun i hi => ?_⟩
  have hret := go_ret code d.step (entry d out c)
  obtain ⟨_, hst⟩ := go_stores code d.step (entry d out c)
  rw [← ho] at hret hst
  rcases hst i hi with h | h
  · have h0 : i = 0 := by
      change i ∈ [0] at h
      simpa using h
    omega
  · have hle : ((o.m.plainchar : Nat) : Int) ≤ c := by
      rw [← hret, a1]; omega
    omega

/-- C13 (output confinement), as the code behaves: from the initialised state, on "TW"
with capacity 1, the call returns 1 through the capacity check after storing at the
indices 0, 0, 0 and 1 of the output region; the store at index 1, of the byte under
assembly, lies outside a region of one byte. In general no store of a call with
capacity `length_out ≥ 1` is at an index above `length_out`. -/
theorem store_past_capacity :
    (htp_base64_decode htp_base64_decoder_init (ascii "TW") (fun _ => 0) 1).map
      (fun o => (o.ret, o.exit, o.m.stores)) = some (1, Exit.out_full, [0, 0, 0, 1]) ∧
    ¬ (∀ o, htp_base64_decode htp_base64_decoder_init (ascii "TW") (fun _ => 0) 1 = some o →
        ∀ i ∈ o.m.stores, (i : Int) < 1) ∧
    (∀ (d : htp_base64_decoder) (code : List Nat) (out : Nat → Nat) (length_out : Int),
      1 ≤ length_out →
      ∃ o, htp_base64_decode d code out length_out = some o ∧
        ∀ i ∈ o.m.stores, (i : Int) ≤ length_out) := by
  have h1 : (htp_base64_decode htp_base64_decoder_init (ascii "TW") (fun _ => 0) 1).map
      (fun o => (o.ret, o.exit, o.m.stores)) = some (1, Exit.out_full, [0, 0, 0, 1]) := by
    decide
  refine ⟨h1, ?_, fun d code out c hc => stores_le_capacity d code out c hc⟩
  intro hall
  cases ho : htp_base64_decode htp_base64_decoder_init (ascii "TW") (fun _ => 0) 1 with
  | none => rw [ho] at h1; cases h1
  | some o =>
    rw [ho] at h1
    have hst : o.m.stores = [0, 0, 0, 1] := by
      have := Option.some.inj h1
      exact congrArg (fun t => t.2.2) this
    have := hall o ho 1 (by rw [hst]; simp)
    omega

/-- C14 (invalid-only input). For every decoder state, every capacity of at least 1 and
every input, empty or not, all of whose characters `htp_base64_decode_single` maps to a
negative value, the call returns 0 and leaves the phase and the pending byte of the state
as they were on entry. -/
theorem invalid_only_noop (d : htp_base64_decoder) (code : List Nat) (out : Nat → Nat)
    (c : Int) (hc : 1 ≤ c)
    (hinv : ∀ ch ∈ code, htp_base64_decode_single (wrap8 ch) < 0) :
    ∃ o, htp_base64_decode d code out c = some o ∧ o.ret = 0 ∧
      o.m.decoder.step = d.step ∧ o.m.decoder.plainchar = d.plainchar := by
  have hs := syms_eq_nil code hinv
  obtain ⟨o, a0, a1, _, a3, _⟩ := decode_spec d code out c (by omega)
  rw [hs] at a1 a3
  obtain ⟨_, e2, e3⟩ := a3 (by change ((0 : Nat) : Int) < c; omega)
  exact ⟨o, a0, by rw [a1]; simp [stream], e2, e3 (Or.inr rfl)⟩

/-- Witness of C14: " =\n!" fed in `step_c` with pending byte `0xA0`. -/
theorem invalid_only_noop_witness :
    (∃ o, htp_base64_decode { step := step_c, plainchar := 0xA0 } [32, 61, 10, 33]
        (fun _ => 0) 1 = some o ∧ o.ret = 0 ∧
      o.m.decoder.step = step_c ∧ o.m.decoder.plainchar = 0xA0) ∧
    (htp_base64_decode { step := step_c, plainchar := 0xA0 } [32, 61, 10, 33]
        (fun _ => 0) 1).map (fun o => (o.ret, o.m.decoder))
      = some (0, { step := step_c, plainchar := 0xA0 }) :=
  ⟨invalid_only_noop { step := step_c, plainchar := 0xA0 } [32, 61, 10, 33] (fun _ => 0) 1
    (by decide) (by decide), by decide⟩

/-- C15 (the pending byte is irrelevant in the first phase). For every input, output
region and capacity, and every two pending bytes `p` and `p'`, the calls from
`(step_a, p)` and from `(step_a, p')` return the same count, write the same bytes and
leave the same phase, and when that phase is not `step_a` they leave the same pending
byte. -/
theorem pending_irrelevant_in_step_a (p p' : Nat) (code : List Nat) (out : Nat → Nat)
    (c : Int) :
    ∃ o o', htp_base64_decode { step := step_a, plainchar := p } code out c = some o ∧
      htp_base64_decode { step := step_a, plainchar := p' } code out c = some o' ∧
      o.ret = o'.ret ∧ o.written = o'.written ∧
      o.m.decoder.step = o'.m.decoder.step ∧
      (o.m.decoder.step ≠ step_a → o.m.decoder.plainchar = o'.m.decoder.plainchar) := by
  by_cases hc : c ≤ 0
  · exact ⟨_, _, decode_no_room _ code out c hc, decode_no_room _ code out c hc, rfl, rfl,
      rfl, fun h => absurd rfl h⟩
  · obtain ⟨o, a0, a1, a2, a3, a4⟩ :=
      decode_spec { step := step_a, plainchar := p } code out c (by omega)
    obtain ⟨o', b0, b1, b2, b3, b4⟩ :=
      decode_spec { step := step_a, plainchar := p' } code out c (by omega)
    have hirr : stream step_a p' (syms code) = stream step_a p (syms code) :=
      stream_a_irrel _ _ _
    change _ = ((min (stream step_a p' (syms code)).length _ : Nat) : Int) at b1
    change _ = (stream step_a p' (syms code)).take _ at b2
    change (((stream step_a p' (syms code)).length : Int) < c → _) at b3
    change (c ≤ ((stream step_a p' (syms code)).length : Int) → _) at b4
    rw [hirr] at b1 b2 b3 b4
    change _ = ((min (stream step_a p (syms code)).length _ : Nat) : Int) at a1
    change _ = (stream step_a p (syms code)).take _ at a2
    change (((stream step_a p (syms code)).length : Int) < c → _) at a3
    change (c ≤ ((stream step_a p (syms code)).length : Int) → _) at a4
    refine ⟨o, o', a0, b0, by rw [a1, b1], by rw [a2, b2], ?_, ?_⟩
    · by_cases hlt : ((stream step_a p (syms code)).length : Int) < c
      · rw [(a3 hlt).2.1, (b3 hlt).2.1]
      · rw [(a4 (by omega)).2, (b4 (by omega)).2]
    · intro hne
      by_cases hlt : ((stream step_a p (syms code)).length : Int) < c
      · obtain ⟨_, e2, e3⟩ := a3 hlt
        obtain ⟨_, f2, f3⟩ := b3 hlt
        rw [e2] at hne
        have hne' : phase step_a (syms code) ≠ step_a := hne
        have hnil : syms code ≠ [] := by
          intro h; rw [h] at hne'; exact hne' rfl
        rw [e3 (Or.inl hne), f3 (Or.inl hne)]
        exact fpend_a_irrel p p' (syms code) hnil
      · rw [(a4 (by omega)).2] at hne
        exact absurd rfl hne

/-- C16 (state on a capacity-limited return). For every decoder state, input, output
region and capacity `c ≥ 1`: if the call returns `c`, it left through the capacity check
and the decoder state after the call is the state on entry; the state is left as on entry
by every return other than those at the end of the input, and on those the count
returned is strictly below `c`. -/
theorem capacity_return_keeps_state (d : htp_base64_decoder) (code : List Nat)
    (out : Nat → Nat) (c : Int) (hc : 1 ≤ c) :
    ∃ o, htp_base64_decode d code out c = some o ∧
      (o.ret = c → o.exit = Exit.out_full ∧ o.m.decoder = d) ∧
      (o.exit ≠ Exit.input_end → o.m.decoder = d) ∧
      (o.exit = Exit.input_end → o.ret < c) := by
  obtain ⟨o, a0, a1, _, a3, a4⟩ := decode_spec d code out c (by omega)
  refine ⟨o, a0, ?_, ?_, ?_⟩
  · intro hret
    apply a4
    rw [a1] at hret
    omega
  · intro hne
    by_cases hlt : ((stream d.step d.plainchar (syms code)).length : Int) < c
    · exact absurd (a3 hlt).1 hne
    · exact (a4 (by omega)).2
  · intro hex
    by_cases hlt : ((stream d.step d.plainchar (syms code)).length : Int) < c
    · rw [a1]; omega
    · rw [(a4 (by omega)).1] at hex
      cases hex

/-- Witness of C16: "TWFu" in `step_b` with pending byte `0x4C` and capacity 2: the call
returns 2 and the state is still `(step_b, 0x4C)`. -/
theorem capacity_return_keeps_state_witness :
    (∃ o, htp_base64_decode { step := step_b, plainchar := 0x4C } (ascii "TWFu")
        (fun _ => 0) 2 = some o ∧
      (o.ret = 2 → o.exit = Exit.out_full ∧ o.m.decoder = { step := step_b, plainchar := 0x4C }) ∧
      (o.exit ≠ Exit.input_end → o.m.decoder = { step := step_b, plainchar := 0x4C }) ∧
      (o.exit = Exit.input_end → o.ret < 2)) ∧
    (htp_base64_decode { step := step_b, plainchar := 0x4C } (ascii "TWFu")
        (fun _ => 0) 2).map (fun o => (o.ret, o.exit, o.m.decoder))
      = some (2, Exit.out_full, { step := step_b, plainchar := 0x4C }) :=
  ⟨capacity_return_keeps_state { step := step_b, plainchar := 0x4C } (ascii "TWFu")
    (fun _ => 0) 2 (by decide), by decide⟩

/-- C17 (zero or negative capacity). For every decoder state, input and output region,
the call with `length_out ≤ 0` returns 0, reads no input character, stores nothing into
the output region, which keeps its contents, and leaves the phase and the pending byte
of the state unchanged. -/
theorem no_capacity_noop (d : htp_base64_decoder) (code : List Nat) (out : Nat → Nat)
    (length_out : Int) (hc : length_out ≤ 0) :
    ∃ o, htp_base64_decode d code out length_out = some o ∧ o.ret = 0 ∧
      o.m.reads = [] ∧ o.m.codechar = 0 ∧ o.m.stores = [] ∧ o.m.out = out ∧
      o.m.decoder = d ∧ o.exit = Exit.no_room :=
  ⟨_, decode_no_room d code out length_out hc, rfl, rfl, rfl, rfl, rfl, rfl, rfl⟩

/-- Witness of C17: "TWFu" in `step_c` with capacity 0, and with capacity -3. -/
theorem no_capacity_noop_witness :
    (∃ o, htp_base64_decode { step := step_c, plainchar := 0xA0 } (ascii "TWFu")
        (fun _ => 7) 0 = some o ∧ o.ret = 0 ∧
      o.m.reads = [] ∧ o.m.codechar = 0 ∧ o.m.stores = [] ∧ o.m.out = (fun _ => 7) ∧
      o.m.decoder = { step := step_c, plainchar := 0xA0 } ∧ o.exit = Exit.no_room) ∧
    (htp_base64_decode { step := step_c, plainchar := 0xA0 } (ascii "TWFu")
        (fun _ => 7) (-3)).map (fun o => (o.ret, o.m.reads, o.m.stores, o.m.decoder))
      = some (0, [], [], { step := step_c, plainchar := 0xA0 }) :=
  ⟨no_capacity_noop { step := step_c, plainchar := 0xA0 } (ascii "TWFu") (fun _ => 7) 0
    (by decide), by decide⟩

/-- C18 (independence from the prior contents of the output region). For every decoder
state, input, capacity larger than the input length and two initial contents of the
output region, the two calls return the same count, report the same bytes at the indices
below that count and leave the same phase, and when that phase is not `step_a` they
leave the same pending byte. -/
theorem region_independence (d : htp_base64_decoder) (code : List Nat)
    (out out' : Nat → Nat) (c : Int) (hc : (code.length : Int) < c) :
    ∃ o o', htp_base64_decode d code out c = some o ∧
      htp_base64_decode d code out' c = some o' ∧
      o.ret = o'.ret ∧ o.written = o'.written ∧
      (∀ k : Nat, (k : Int) < o.ret → o.m.out k = o'.m.out k) ∧
      o.m.decoder.step = o'.m.decoder.step ∧
      (o.m.decoder.step ≠ step_a → o.m.decoder.plainchar = o'.m.decoder.plainchar) := by
  obtain ⟨o, a0, a1, a2, _, a4, a5⟩ := decode_roomy d code out c hc
  obtain ⟨o', b0, b1, b2, _, b4, b5⟩ := decode_roomy d code out' c hc
  have hw : o.written = o'.written := by rw [a2, b2]
  have hr : o.ret = o'.ret := by rw [a1, b1]
  refine ⟨o, o', a0, b0, hr, hw, ?_, by rw [a4, b4], ?_⟩
  · intro k hk
    have hk1 : k < o.ret.toNat := by omega
    have hk2 : k < o'.ret.toNat := by rw [← hr]; exact hk1
    have e1 : o.written[k]? = some (o.m.out k) := by
      simp [Outcome.written, List.getElem?_map, List.getElem?_range hk1]
    have e2 : o'.written[k]? = some (o'.m.out k) := by
      simp [Outcome.written, List.getElem?_map, List.getElem?_range hk2]
    rw [hw, e2] at e1
    exact (Option.some.inj e1).symm
  · intro hne
    rw [a4] at hne
    rw [a5 (Or.inl hne), b5 (Or.inl hne)]

/-- Witness of C18: "TWE=" into a zeroed region and into a region of `0xFF` bytes. -/
theorem region_independence_witness :
    (∃ o o', htp_base64_decode htp_base64_decoder_init (ascii "TWE=") (fun _ => 0) 5 = some o ∧
      htp_base64_decode htp_base64_decoder_init (ascii "TWE=") (fun _ => 0xFF) 5 = some o' ∧
      o.ret = o'.ret ∧ o.written = o'.written ∧
      (∀ k : Nat, (k : Int) < o.ret → o.m.out k = o'.m.out k) ∧
      o.m.decoder.step = o'.m.decoder.step ∧
      (o.m.decoder.step ≠ step_a → o.m.decoder.plainchar = o'.m.decoder.plainchar)) ∧
    (htp_base64_decode htp_base64_decoder_init (ascii "TWE=") (fun _ => 0xFF) 5).map
      (fun o => (o.written, o.m.decoder)) = some ([0x4D, 0x61], { step := step_d, plainchar := 0 })
    ∧
    (htp_base64_decode htp_base64_decoder_init (ascii "TWFu") (fun _ => 0xFF) 5).map
      (fun o => (o.written, o.m.decoder))
      = some ([0x4D, 0x61, 0x6E], { step := step_a, plainchar := 0xFF }) :=
  ⟨region_independence htp_base64_decoder_init (ascii "TWE=") (fun _ => 0) (fun _ => 0xFF) 5
    (by decide), by decide, by decide⟩

/-- C19 (sentinels and range). For every 8-bit character the result of
`htp_base64_decode_single` is `-2`, `-1` or in `0..63`; it is `-2` exactly for `=`, and
`-1` for every other character outside the alphabet; and whenever the table is read, for
any value of `value_in`, the index computed by `value_in -= 43` lies in `0..79`, inside
the table. -/
theorem single_sentinels :
    (∀ c : Fin 256,
      (htp_base64_decode_single (wrap8 c.val) = -2 ∨
        htp_base64_decode_single (wrap8 c.val) = -1 ∨
        (0 ≤ htp_base64_decode_single (wrap8 c.val) ∧
          htp_base64_decode_single (wrap8 c.val) ≤ 63)) ∧
      (htp_base64_decode_single (wrap8 c.val) = -2 ↔ c.val = 61) ∧
      (¬ ((65 ≤ c.val ∧ c.val ≤ 90) ∨ (97 ≤ c.val ∧ c.val ≤ 122) ∨
          (48 ≤ c.val ∧ c.val ≤ 57) ∨ c.val = 43 ∨ c.val = 47) → c.val ≠ 61 →
        htp_base64_decode_single (wrap8 c.val) = -1)) ∧
    (∀ (value_in i : Int), decoding_index value_in = some i →
      0 ≤ i ∧ i ≤ 79 ∧ i.toNat < decoding.length) := by
  refine ⟨by set_option maxRecDepth 100000 in decide, ?_⟩
  intro x i h
  unfold decoding_index at h
  simp only [decoding_size_eq] at h
  split at h
  · cases h
  · rename_i hcond
    have hi := Option.some.inj h
    have hlen : decoding.length = 80 := rfl
    rw [hlen]
    omega

end HtpBase64
